import Mathlib

/-!
# Gray-level co-occurrence matrix and texture features

A shallow embedding of the numeric core of `test2.c` (`rgbToGrayscale`,
`calculateGLCM` and `calculateTextureFeatures`) and of `calculateMeanColor` of
`test1.c`.

Conventions of the embedding.

* `unsigned char` is `Fin 256`.
* `int` is `Int`, and the `int` products are reduced to 32 bits by `wrap32`
  (two's complement): the loop bounds `width * height` of `rgbToGrayscale` and
  `calculateMeanColor` and the indices `y * width + x`, `newY * width + newX` of
  `calculateGLCM`.  Signed overflow is undefined in C; the reduction is the
  result on two's complement hardware.  The sums `x + dx`, `y + dy` and
  `-distance` are left exact; see `wrap32_inBounds_iff` for why wrap-around
  never changes the bounds test.
* `double` is exact rational arithmetic (`ℚ`): rounding is not modelled.  The
  value `sqrt(v)` is only ever tested against zero and multiplied by itself, so
  it is kept by its radicand (`Sqrt.root v`), with a separate result for a
  negative argument (`Sqrt.nan`).  The last section records a pixel on which
  binary64 rounding changes the gray value of `rgbToGrayscale` and an image on
  which it lifts the contrast above 65025.
* a read outside a buffer makes the function return `none`.
* `double glcm[256][256]` is a structure holding a function
  `Fin 256 → Fin 256 → ℚ`, the value of each cell.
-/

namespace AutoML

open Finset

/-! ## Data model -/

/-- The macro `GRAY_LEVELS`. -/
abbrev GRAY_LEVELS : Nat := 256

/-- An `unsigned char`. -/
abbrev GrayLevel := Fin GRAY_LEVELS

/-- The struct `RGBPixel`: three `unsigned char` channels. -/
structure RGBPixel where
  r : GrayLevel
  g : GrayLevel
  b : GrayLevel
deriving DecidableEq, Repr

/-- The array `double glcm[GRAY_LEVELS][GRAY_LEVELS]`: `cell i j` is `glcm[i][j]`. -/
@[ext]
structure Glcm where
  cell : GrayLevel → GrayLevel → ℚ

/-- The three outputs of `calculateTextureFeatures`.  The correlation is `none`
when the program divides by the square of `sqrt` of a negative number. -/
structure TextureFeatures where
  contrast : ℚ
  correlation : Option ℚ
  energy : ℚ
deriving DecidableEq, Repr

/-! ## Machine integers -/

/-- Reduction of an integer to the range of a 32-bit two's complement `int`. -/
def wrap32 (z : Int) : Int :=
  (z + 2147483648) % 4294967296 - 2147483648

/-- The constant `INT_MAX` of a 32-bit `int`. -/
abbrev INT_MAX : Int := 2147483647

/-! ## Loops -/

/-- The loop nest `for (i = 0; i < GRAY_LEVELS; i++) for (j = 0; j < GRAY_LEVELS; j++)`
run on a state `σ`, the body being `body`. -/
def gridLoop {σ : Type} (body : σ → GrayLevel → GrayLevel → σ) (start : σ) : σ :=
  (List.finRange GRAY_LEVELS).foldl
    (fun s i => (List.finRange GRAY_LEVELS).foldl (fun s j => body s i j) s) start

/-! ## `rgbToGrayscale` -/

/-- The conversion `(unsigned char) q` of a `double`: the fractional part is
discarded (rounding towards zero), the integer is reduced modulo 256. -/
def toUnsignedChar (q : ℚ) : GrayLevel :=
  let t : Int := if 0 ≤ q then ⌊q⌋ else ⌈q⌉
  ⟨(t % 256).toNat, by
    have h1 : 0 ≤ t % 256 := Int.emod_nonneg _ (by decide)
    have h2 : t % 256 < 256 := Int.emod_lt_of_pos _ (by decide)
    have : ((t % 256).toNat : Int) < 256 := by rw [Int.toNat_of_nonneg h1]; exact h2
    exact_mod_cast this⟩

/-- The expression `0.3 * p.r + 0.59 * p.g + 0.11 * p.b`. -/
def luma (p : RGBPixel) : ℚ :=
  (3 / 10) * ((p.r : Nat) : ℚ) + (59 / 100) * ((p.g : Nat) : ℚ)
    + (11 / 100) * ((p.b : Nat) : ℚ)

/-- The function `rgbToGrayscale`: entry `i` of the gray buffer, for
`0 ≤ i < width * height` (an `int` product), is the converted luma of
`pixels[i]`.  The result lists the entries written. -/
def rgbToGrayscale (pixels : List RGBPixel) (width height : Int) : Option (List GrayLevel) :=
  (List.range (wrap32 (width * height)).toNat).mapM
    (fun i => pixels[i]?.map (fun p => toUnsignedChar (luma p)))

/-! ## `calculateGLCM` -/

/-- The read `grayImage[idx]`. -/
def readGray (grayImage : List GrayLevel) (idx : Int) : Option GrayLevel :=
  if 0 ≤ idx then grayImage[idx.toNat]? else none

/-- The offset `(dx, dy)` chosen from the angle. -/
def direction (distance angle : Int) : Int × Int :=
  if angle = 0 then (distance, 0)
  else if angle = 90 then (0, -distance)
  else (0, 0)

/-- The bounds test `newX >= 0 && newX < width && newY >= 0 && newY < height`. -/
def inBounds (width height newX newY : Int) : Bool :=
  decide (0 ≤ newX) && decide (newX < width) && decide (0 ≤ newY) && decide (newY < height)

/-- The statement `glcm[currentValue][newValue]++`. -/
def increment (glcm : Glcm) (currentValue newValue : GrayLevel) : Glcm :=
  ⟨fun i j => if i = currentValue ∧ j = newValue then glcm.cell i j + 1 else glcm.cell i j⟩

/-- The body of the pixel scan at position `(x, y)`.  The two indices are `int`
expressions. -/
def visit (grayImage : List GrayLevel) (width height dx dy : Int) (y x : Nat)
    (glcm : Glcm) : Option Glcm :=
  let newX : Int := (x : Int) + dx
  let newY : Int := (y : Int) + dy
  if inBounds width height newX newY then
    match readGray grayImage (wrap32 ((y : Int) * width + (x : Int))),
          readGray grayImage (wrap32 (newY * width + newX)) with
    | some currentValue, some newValue => some (increment glcm currentValue newValue)
    | _, _ => none
  else some glcm

/-- The pixel scan `for (y = 0; y < height; y++) for (x = 0; x < width; x++)`,
started on the zeroed matrix. -/
def countPairs (grayImage : List GrayLevel) (width height dx dy : Int) : Option Glcm :=
  (List.range height.toNat).foldlM
    (fun glcm y => (List.range width.toNat).foldlM
      (fun glcm x => visit grayImage width height dx dy y x glcm) glcm)
    ⟨fun _ _ => 0⟩

/-- The normalisation sum `sum += glcm[i][j]` over the grid. -/
def glcmSum (glcm : Glcm) : ℚ :=
  gridLoop (fun sum i j => sum + glcm.cell i j) 0

/-- The normalisation: divide every cell by the sum, unless the sum is zero. -/
def normalize (glcm : Glcm) : Glcm :=
  let sum := glcmSum glcm
  if sum ≠ 0 then ⟨fun i j => glcm.cell i j / sum⟩ else glcm

/-- The function `calculateGLCM`. -/
def calculateGLCM (grayImage : List GrayLevel) (width height distance angle : Int) :
    Option Glcm :=
  (countPairs grayImage width height (direction distance angle).1
    (direction distance angle).2).map normalize

/-! ## `calculateTextureFeatures` -/

/-- The value of `sqrt(v)`: for `0 ≤ v` the non-negative real number whose square
is `v`, kept by its radicand; for `v < 0` not a number. -/
inductive Sqrt where
  | root (radicand : ℚ)
  | nan
deriving DecidableEq, Repr

/-- The library function `sqrt`. -/
def sqrt (v : ℚ) : Sqrt :=
  if 0 ≤ v then Sqrt.root v else Sqrt.nan

/-- The first loop nest: `mean += i * glcm[i][j]`. -/
def glcmMean (glcm : Glcm) : ℚ :=
  gridLoop (fun mean i j => mean + ((i : Nat) : ℚ) * glcm.cell i j) 0

/-- The second loop nest: `std += glcm[i][j] * (i - mean) * (i - mean)`, before
the square root is taken. -/
def glcmVariance (glcm : Glcm) : ℚ :=
  let mean := glcmMean glcm
  gridLoop
    (fun std i j =>
      std + glcm.cell i j * (((i : Nat) : ℚ) - mean) * (((i : Nat) : ℚ) - mean)) 0

/-- The statement
`if (std != 0) *correlation += ((i - mean) * (j - mean) * glcm[i][j]) / (std * std);`.
For a root `std != 0` is `radicand ≠ 0` and `std * std` is the radicand; for
not-a-number the test succeeds and the quotient is not a number. -/
def addCorrelation (std : Sqrt) (mean : ℚ) (glcm : Glcm) (correlation : Option ℚ)
    (i j : GrayLevel) : Option ℚ :=
  match std with
  | Sqrt.root v =>
    if v ≠ 0 then
      correlation.map
        (fun c => c + ((((i : Nat) : ℚ) - mean) * (((j : Nat) : ℚ) - mean) * glcm.cell i j) / v)
    else correlation
  | Sqrt.nan => none

/-- The function `calculateTextureFeatures`. -/
def calculateTextureFeatures (glcm : Glcm) : TextureFeatures :=
  let mean := glcmMean glcm
  let std := sqrt (glcmVariance glcm)
  gridLoop
    (fun out i j =>
      { contrast :=
          out.contrast + (((((i : Nat) : Int) - ((j : Nat) : Int)) *
            (((i : Nat) : Int) - ((j : Nat) : Int)) : Int) : ℚ) * glcm.cell i j
        correlation := addCorrelation std mean glcm out.correlation i j
        energy := out.energy + glcm.cell i j * glcm.cell i j })
    { contrast := 0, correlation := some 0, energy := 0 }

/-! ## The formulas of the specification -/

namespace Spec

/-- The row-index mean: the sum of `i * matrix[i][j]` over the grid. -/
def mean (m : Glcm) : ℚ := ∑ i : GrayLevel, ∑ j : GrayLevel, (i.val : ℚ) * m.cell i j

/-- The square of the standard deviation: the sum of `matrix[i][j] * (i - mean)^2`. -/
def variance (m : Glcm) : ℚ :=
  ∑ i : GrayLevel, ∑ j : GrayLevel, m.cell i j * ((i.val : ℚ) - mean m) ^ 2

/-- Contrast: the sum of `(i - j)^2 * matrix[i][j]`. -/
def contrast (m : Glcm) : ℚ :=
  ∑ i : GrayLevel, ∑ j : GrayLevel, ((i.val : ℚ) - (j.val : ℚ)) ^ 2 * m.cell i j

/-- Correlation as one quotient: the sum of `(i - mean) * (j - mean) * matrix[i][j]`,
divided by the square of the standard deviation. -/
def correlation (m : Glcm) : ℚ :=
  (∑ i : GrayLevel, ∑ j : GrayLevel,
    ((i.val : ℚ) - mean m) * ((j.val : ℚ) - mean m) * m.cell i j) / variance m

/-- Energy: the sum of `matrix[i][j]^2`. -/
def energy (m : Glcm) : ℚ := ∑ i : GrayLevel, ∑ j : GrayLevel, m.cell i j ^ 2

/-- The gray value at position `(x, y)` of a row-major buffer. -/
def gray (grayImage : List GrayLevel) (width : Int) (x y : Int) : Option GrayLevel :=
  if 0 ≤ y * width + x then grayImage[(y * width + x).toNat]? else none

/-- The positions `(x, y)` of the image: `0 ≤ x < width`, `0 ≤ y < height`. -/
def positions (width height : Int) : Finset (Nat × Nat) :=
  Finset.range width.toNat ×ˢ Finset.range height.toNat

/-- The position `(x, y)` lies within the image bounds. -/
def inImage (width height x y : Int) : Prop :=
  0 ≤ x ∧ x < width ∧ 0 ≤ y ∧ y < height

instance (width height x y : Int) : Decidable (inImage width height x y) :=
  inferInstanceAs (Decidable (0 ≤ x ∧ x < width ∧ 0 ≤ y ∧ y < height))

/-- The positions of the image whose offset position `(x + dx, y + dy)` lies
within the image bounds. -/
def validPositions (width height dx dy : Int) : Finset (Nat × Nat) :=
  (positions width height).filter
    (fun p => inImage width height ((p.1 : Int) + dx) ((p.2 : Int) + dy))

/-- The valid positions with gray value `a` whose offset position has gray value `b`. -/
def pairPositions (grayImage : List GrayLevel) (width height dx dy : Int)
    (a b : GrayLevel) : Finset (Nat × Nat) :=
  (validPositions width height dx dy).filter
    (fun p => gray grayImage width p.1 p.2 = some a ∧
      gray grayImage width ((p.1 : Int) + dx) ((p.2 : Int) + dy) = some b)

end Spec

/-- The contribution of position `(x, y)` to cell `[a][b]` of the pixel scan:
one when the offset position is in bounds and the two reads give `a` and `b`. -/
def hit (grayImage : List GrayLevel) (width height dx dy : Int) (a b : GrayLevel)
    (y x : Nat) : ℚ :=
  if inBounds width height ((x : Int) + dx) ((y : Int) + dy) = true ∧
      readGray grayImage ((y : Int) * width + (x : Int)) = some a ∧
      readGray grayImage (((y : Int) + dy) * width + ((x : Int) + dx)) = some b
  then 1 else 0

/-! ## Inputs of the scenarios -/

/-- The `2 × 2` image of the round-trip scenario, row-major. -/
def scenarioPixels : List RGBPixel :=
  [⟨0, 0, 0⟩, ⟨255, 255, 255⟩, ⟨255, 255, 255⟩, ⟨0, 0, 0⟩]

/-- A uniform gray buffer of `65536 * 32769 = 2147549184` pixels of gray value 7,
one image row more than `INT_MAX` pixels. -/
def hugeGray : List GrayLevel := List.replicate 2147549184 7

/-- A pixel buffer of `46341 * 46341 = 2147488281` pixels `(10, 20, 30)`, the
smallest square image of more than `INT_MAX` pixels. -/
def hugePixels : List RGBPixel := List.replicate 2147488281 ⟨10, 20, 30⟩

/-- The normalised matrix of the round-trip scenario: `[0][255]` and `[255][0]`
are one half, every other cell is zero. -/
def scenarioMatrix : Glcm :=
  ⟨fun i j => if (i = 0 ∧ j = 255) ∨ (i = 255 ∧ j = 0) then 1 / 2 else 0⟩

/-- The matrix of a uniform image of gray value `v`: `[v][v]` is one, every
other cell is zero. -/
def uniformMatrix (v : GrayLevel) : Glcm :=
  ⟨fun i j => if i = v ∧ j = v then 1 else 0⟩

/-! ## `calculateMeanColor` (`test1.c`) -/

/-- The accumulators `totalRed`, `totalGreen`, `totalBlue`.  They are
`long long`; `channel_sum_le` bounds them by `255 * numPixels`, far below
`2 ^ 63` for an `int` pixel count. -/
structure ColorTotals where
  totalRed : Int
  totalGreen : Int
  totalBlue : Int
deriving DecidableEq, Repr

/-- The three outputs of `calculateMeanColor`.  A mean is `none` when the
program divides by a pixel count of zero. -/
structure MeanColor where
  meanRed : Option ℚ
  meanGreen : Option ℚ
  meanBlue : Option ℚ
deriving DecidableEq, Repr

/-- The body of the loop of `calculateMeanColor` at index `i`. -/
def addPixel (pixels : List RGBPixel) (totals : ColorTotals) (i : Nat) : Option ColorTotals :=
  pixels[i]?.map (fun p =>
    { totalRed := totals.totalRed + ((p.r : Nat) : Int)
      totalGreen := totals.totalGreen + ((p.g : Nat) : Int)
      totalBlue := totals.totalBlue + ((p.b : Nat) : Int) })

/-- The quotient `(double)total / numPixels`. -/
def meanOf (total numPixels : Int) : Option ℚ :=
  if numPixels = 0 then none else some ((total : ℚ) / (numPixels : ℚ))

/-- The function `calculateMeanColor`. -/
def calculateMeanColor (pixels : List RGBPixel) (width height : Int) : Option MeanColor :=
  let numPixels : Int := wrap32 (width * height)
  ((List.range numPixels.toNat).foldlM (addPixel pixels)
      { totalRed := 0, totalGreen := 0, totalBlue := 0 }).map
    (fun totals =>
      { meanRed := meanOf totals.totalRed numPixels
        meanGreen := meanOf totals.totalGreen numPixels
        meanBlue := meanOf totals.totalBlue numPixels })

/-- The sum of the red channel over all pixels. -/
def Spec.sumRed (pixels : List RGBPixel) : Nat := (pixels.map (fun p => p.r.val)).sum

/-- The sum of the green channel over all pixels. -/
def Spec.sumGreen (pixels : List RGBPixel) : Nat := (pixels.map (fun p => p.g.val)).sum

/-- The sum of the blue channel over all pixels. -/
def Spec.sumBlue (pixels : List RGBPixel) : Nat := (pixels.map (fun p => p.b.val)).sum

/-- The normalised matrix of the `2 × 2` image with rows `[0, 0]` and
`[1, 255]`: `[0][0]` and `[1][255]` are one half, every other cell is zero. -/
def skewMatrix : Glcm :=
  ⟨fun i j => if (i = 0 ∧ j = 0) ∨ (i = 1 ∧ j = 255) then 1 / 2 else 0⟩

/-! ## Binary64 rounding

The embedding computes with exact rationals.  The definitions below evaluate the
luma expression of `rgbToGrayscale`, the normalisation of `calculateGLCM` and
the contrast of `calculateTextureFeatures` with every constant, product,
quotient and sum rounded to the nearest binary64 number, to mark where the two
evaluations part. -/

/-- The least exponent `k`, searched upwards from the given one, with
`2 ^ 52 ≤ q * 2 ^ k`; the search stops when the fuel is used up. -/
def scaleExponent (q : ℚ) : Nat → Nat → Nat
  | 0, k => k
  | fuel + 1, k => if 2 ^ 52 ≤ q * 2 ^ k then k else scaleExponent q fuel (k + 1)

/-- The binary64 number nearest to `q`, ties to even, for `0 ≤ q < 2 ^ 53`:
`q` is scaled by `2 ^ k` so that its integer part has 53 bits (`k` is at most
1074, the exponent of the subnormal spacing), rounded to an integer and scaled
back. -/
def roundBinary64 (q : ℚ) : ℚ :=
  let k : Nat := scaleExponent q 1074 0
  let s : ℚ := q * 2 ^ k
  let f : Int := ⌊s⌋
  let n : Int :=
    if s - f < 1 / 2 then f
    else if 1 / 2 < s - f then f + 1
    else if f % 2 = 0 then f else f + 1
  (n : ℚ) / 2 ^ k

/-- The expression `0.3 * p.r + 0.59 * p.g + 0.11 * p.b` evaluated in binary64:
the three constants, the three products and the two sums are each rounded. -/
def lumaBinary64 (p : RGBPixel) : ℚ :=
  roundBinary64
    (roundBinary64
        (roundBinary64 (roundBinary64 (3 / 10) * ((p.r : Nat) : ℚ))
          + roundBinary64 (roundBinary64 (59 / 100) * ((p.g : Nat) : ℚ)))
      + roundBinary64 (roundBinary64 (11 / 100) * ((p.b : Nat) : ℚ)))

/-- For 32-bit `width`, `height` and `distance` and a position of the image, the
bounds test gives the same answer on the wrapped sums `x + distance` and
`y + (-distance)` as on the exact ones, and a position that passes the test is
the exact one. -/
theorem wrap32_inBounds_iff (width height distance : Int) (x y : Nat)
    (hw : width < 2147483648) (hh : height < 2147483648)
    (hd : -2147483648 ≤ distance) (hd2 : distance < 2147483648)
    (hx : (x : Int) < width) (hy : (y : Int) < height) :
    (inBounds width height (wrap32 ((x : Int) + distance)) (y : Int)
        = inBounds width height ((x : Int) + distance) (y : Int)) ∧
    (inBounds width height (x : Int) (wrap32 ((y : Int) + wrap32 (-distance)))
        = inBounds width height (x : Int) ((y : Int) + -distance)) ∧
    (inBounds width height ((x : Int) + distance) (y : Int) = true →
        wrap32 ((x : Int) + distance) = (x : Int) + distance) ∧
    (inBounds width height (x : Int) ((y : Int) + -distance) = true →
        wrap32 ((y : Int) + wrap32 (-distance)) = (y : Int) + -distance) := by
  unfold wrap32
  refine ⟨?_, ?_, ?_, ?_⟩
  · rw [Bool.eq_iff_iff]
    unfold inBounds
    simp only [Bool.and_eq_true, decide_eq_true_eq]
    constructor <;> intro h <;> omega
  · rw [Bool.eq_iff_iff]
    unfold inBounds
    simp only [Bool.and_eq_true, decide_eq_true_eq]
    constructor <;> intro h <;> omega
  · unfold inBounds
    simp only [Bool.and_eq_true, decide_eq_true_eq]
    intro h
    omega
  · unfold inBounds
    simp only [Bool.and_eq_true, decide_eq_true_eq]
    intro h
    omega

/-! ## The loop nest over the grid as a double sum -/

theorem foldl_add_eq_sum {α : Type} (f : α → ℚ) (l : List α) (a : ℚ) :
    l.foldl (fun s x => s + f x) a = a + (l.map f).sum := by
  induction l generalizing a with
  | nil => simp
  | cons x xs ih => simp [ih, add_assoc]

theorem foldl_finRange_add (f : GrayLevel → ℚ) (a : ℚ) :
    (List.finRange GRAY_LEVELS).foldl (fun s i => s + f i) a = a + ∑ i, f i := by
  rw [foldl_add_eq_sum, Fin.sum_univ_def]

/-- An accumulation `s += f i j` over the grid adds the double sum of `f`. -/
theorem gridLoop_add (f : GrayLevel → GrayLevel → ℚ) (a : ℚ) :
    gridLoop (fun s i j => s + f i j) a = a + ∑ i, ∑ j, f i j := by
  unfold gridLoop
  have inner : (fun (s : ℚ) (i : GrayLevel) =>
      (List.finRange GRAY_LEVELS).foldl (fun s j => s + f i j) s)
      = fun s i => s + ∑ j, f i j := by
    funext s i
    exact foldl_finRange_add (f i) s
  rw [inner]
  exact foldl_finRange_add (fun i => ∑ j, f i j) a

theorem glcmSum_eq (glcm : Glcm) : glcmSum glcm = ∑ i, ∑ j, glcm.cell i j := by
  unfold glcmSum
  rw [gridLoop_add, zero_add]

theorem glcmMean_eq (glcm : Glcm) :
    glcmMean glcm = ∑ i : GrayLevel, ∑ j : GrayLevel, (i.val : ℚ) * glcm.cell i j := by
  unfold glcmMean
  rw [gridLoop_add, zero_add]

theorem glcmVariance_eq (glcm : Glcm) :
    glcmVariance glcm
      = ∑ i : GrayLevel, ∑ j : GrayLevel,
          glcm.cell i j * ((i.val : ℚ) - glcmMean glcm) ^ 2 := by
  unfold glcmVariance
  simp only [gridLoop_add, zero_add]
  refine Finset.sum_congr rfl (fun i _ => Finset.sum_congr rfl (fun j _ => ?_))
  ring

/-! ## The feature loop, one output at a time -/

theorem foldl_features {α : Type} (fc fe : α → ℚ) (fr : Option ℚ → α → Option ℚ)
    (l : List α) (out : TextureFeatures) :
    l.foldl (fun out x =>
        ({ contrast := out.contrast + fc x
           correlation := fr out.correlation x
           energy := out.energy + fe x } : TextureFeatures)) out
      = { contrast := l.foldl (fun s x => s + fc x) out.contrast
          correlation := l.foldl fr out.correlation
          energy := l.foldl (fun s x => s + fe x) out.energy } := by
  induction l generalizing out with
  | nil => rfl
  | cons x xs ih => simp only [List.foldl_cons, ih]

theorem gridLoop_features (fc fe : GrayLevel → GrayLevel → ℚ)
    (fr : Option ℚ → GrayLevel → GrayLevel → Option ℚ) (out : TextureFeatures) :
    gridLoop (fun out i j =>
        ({ contrast := out.contrast + fc i j
           correlation := fr out.correlation i j
           energy := out.energy + fe i j } : TextureFeatures)) out
      = { contrast := gridLoop (fun s i j => s + fc i j) out.contrast
          correlation := gridLoop fr out.correlation
          energy := gridLoop (fun s i j => s + fe i j) out.energy } := by
  unfold gridLoop
  have inner : (fun (out : TextureFeatures) (i : GrayLevel) =>
      (List.finRange GRAY_LEVELS).foldl (fun out j =>
        ({ contrast := out.contrast + fc i j
           correlation := fr out.correlation i j
           energy := out.energy + fe i j } : TextureFeatures)) out)
      = fun out i =>
        { contrast := out.contrast + ∑ j, fc i j
          correlation := (List.finRange GRAY_LEVELS).foldl (fun c j => fr c i j) out.correlation
          energy := out.energy + ∑ j, fe i j } := by
    funext out i
    rw [foldl_features (fc i) (fe i) (fun c j => fr c i j), foldl_finRange_add,
      foldl_finRange_add]
  rw [inner, foldl_features (fun i => ∑ j, fc i j) (fun i => ∑ j, fe i j)
    (fun c i => (List.finRange GRAY_LEVELS).foldl (fun c j => fr c i j) c)]
  have row : ∀ (f : GrayLevel → GrayLevel → ℚ),
      (fun (s : ℚ) (i : GrayLevel) =>
        (List.finRange GRAY_LEVELS).foldl (fun s j => s + f i j) s)
        = fun s i => s + ∑ j, f i j := by
    intro f
    funext s i
    exact foldl_finRange_add (f i) s
  rw [row fc, row fe]

theorem foldl_keep {α σ : Type} (l : List α) (s : σ) : l.foldl (fun s _ => s) s = s := by
  induction l with
  | nil => rfl
  | cons x xs ih => simp [ih]

theorem gridLoop_keep {σ : Type} (s : σ) : gridLoop (fun s _ _ => s) s = s := by
  unfold gridLoop
  simp only [foldl_keep]

theorem foldl_map_some {α : Type} (g : ℚ → α → ℚ) (l : List α) (a : ℚ) :
    l.foldl (fun (c : Option ℚ) x => c.map (fun s => g s x)) (some a) = some (l.foldl g a) := by
  induction l generalizing a with
  | nil => rfl
  | cons x xs ih => simp only [List.foldl_cons, Option.map_some', ih]

theorem foldl_map_none {α : Type} (g : ℚ → α → ℚ) (l : List α) :
    l.foldl (fun (c : Option ℚ) x => c.map (fun s => g s x)) none = none := by
  induction l with
  | nil => rfl
  | cons x xs ih => simpa using ih

theorem gridLoop_map_some (g : ℚ → GrayLevel → GrayLevel → ℚ) (a : ℚ) :
    gridLoop (fun (c : Option ℚ) i j => c.map (fun s => g s i j)) (some a)
      = some (gridLoop g a) := by
  unfold gridLoop
  have inner : (fun (c : Option ℚ) (i : GrayLevel) =>
      (List.finRange GRAY_LEVELS).foldl (fun (c : Option ℚ) j => c.map (fun s => g s i j)) c)
      = fun c i => c.map (fun s => (List.finRange GRAY_LEVELS).foldl (fun s j => g s i j) s) := by
    funext c i
    cases c with
    | none => exact foldl_map_none (fun s j => g s i j) _
    | some a => exact foldl_map_some (fun s j => g s i j) _ a
  rw [inner]
  exact foldl_map_some
    (fun s i => (List.finRange GRAY_LEVELS).foldl (fun s j => g s i j) s) _ a

theorem foldl_none {α : Type} (l : List α) (hl : l ≠ []) (c : Option ℚ) :
    l.foldl (fun _ _ => (none : Option ℚ)) c = none := by
  cases l with
  | nil => exact absurd rfl hl
  | cons x xs =>
    simp only [List.foldl_cons]
    induction xs with
    | nil => rfl
    | cons y ys ih => simpa using ih

theorem finRange_gray_ne_nil : List.finRange GRAY_LEVELS ≠ [] := by
  intro h
  have := congrArg List.length h
  simp at this

theorem gridLoop_none (c : Option ℚ) :
    gridLoop (fun _ _ _ => (none : Option ℚ)) c = none := by
  unfold gridLoop
  have inner : (fun (c : Option ℚ) (_ : GrayLevel) =>
      (List.finRange GRAY_LEVELS).foldl (fun _ _ => (none : Option ℚ)) c)
      = fun _ _ => none := by
    funext c i
    exact foldl_none _ finRange_gray_ne_nil c
  rw [inner]
  exact foldl_none _ finRange_gray_ne_nil c

/-- The feature loop split into its three accumulators. -/
theorem calculateTextureFeatures_split (glcm : Glcm) :
    calculateTextureFeatures glcm
      = { contrast := ∑ i : GrayLevel, ∑ j : GrayLevel,
            ((((i.val : Int) - (j.val : Int)) * ((i.val : Int) - (j.val : Int)) : Int) : ℚ)
              * glcm.cell i j
          correlation :=
            gridLoop (addCorrelation (sqrt (glcmVariance glcm)) (glcmMean glcm) glcm) (some 0)
          energy := ∑ i : GrayLevel, ∑ j : GrayLevel, glcm.cell i j * glcm.cell i j } := by
  unfold calculateTextureFeatures
  simp only []
  rw [gridLoop_features
    (fun i j => ((((i.val : Int) - (j.val : Int)) * ((i.val : Int) - (j.val : Int)) : Int) : ℚ)
      * glcm.cell i j)
    (fun i j => glcm.cell i j * glcm.cell i j)
    (addCorrelation (sqrt (glcmVariance glcm)) (glcmMean glcm) glcm)]
  simp only [gridLoop_add, zero_add]

theorem features_contrast (glcm : Glcm) :
    (calculateTextureFeatures glcm).contrast = Spec.contrast glcm := by
  rw [calculateTextureFeatures_split, Spec.contrast]
  simp only []
  refine Finset.sum_congr rfl (fun i _ => Finset.sum_congr rfl (fun j _ => ?_))
  push_cast
  ring

theorem features_energy (glcm : Glcm) :
    (calculateTextureFeatures glcm).energy = Spec.energy glcm := by
  rw [calculateTextureFeatures_split, Spec.energy]
  simp only []
  refine Finset.sum_congr rfl (fun i _ => Finset.sum_congr rfl (fun j _ => ?_))
  ring

theorem mean_eq_spec (glcm : Glcm) : glcmMean glcm = Spec.mean glcm := glcmMean_eq glcm

theorem variance_eq_spec (glcm : Glcm) : glcmVariance glcm = Spec.variance glcm := by
  rw [glcmVariance_eq, mean_eq_spec]; rfl

theorem features_correlation_of_pos (glcm : Glcm) (h : 0 < glcmVariance glcm) :
    (calculateTextureFeatures glcm).correlation = some (Spec.correlation glcm) := by
  rw [calculateTextureFeatures_split]
  simp only []
  have hs : sqrt (glcmVariance glcm) = Sqrt.root (glcmVariance glcm) := by
    unfold sqrt; rw [if_pos h.le]
  rw [hs]
  have body : addCorrelation (Sqrt.root (glcmVariance glcm)) (glcmMean glcm) glcm
      = fun (c : Option ℚ) i j => c.map (fun s => s +
          (((i.val : ℚ) - glcmMean glcm) * ((j.val : ℚ) - glcmMean glcm) * glcm.cell i j)
            / glcmVariance glcm) := by
    funext c i j
    unfold addCorrelation
    simp only []
    rw [if_pos h.ne']
  rw [body, gridLoop_map_some, gridLoop_add, zero_add]
  rw [Spec.correlation, ← mean_eq_spec, ← variance_eq_spec, Finset.sum_div]
  refine congrArg some ?_
  refine Finset.sum_congr rfl (fun i _ => ?_)
  rw [Finset.sum_div]

theorem features_correlation_of_zero (glcm : Glcm) (h : glcmVariance glcm = 0) :
    (calculateTextureFeatures glcm).correlation = some 0 := by
  rw [calculateTextureFeatures_split]
  simp only []
  have hs : sqrt (glcmVariance glcm) = Sqrt.root 0 := by
    unfold sqrt; rw [h, if_pos le_rfl]
  rw [hs]
  have body : addCorrelation (Sqrt.root 0) (glcmMean glcm) glcm
      = fun (c : Option ℚ) _ _ => c := by
    funext c i j
    unfold addCorrelation
    simp
  rw [body, gridLoop_keep]

theorem features_correlation_of_neg (glcm : Glcm) (h : glcmVariance glcm < 0) :
    (calculateTextureFeatures glcm).correlation = none := by
  rw [calculateTextureFeatures_split]
  simp only []
  have hs : sqrt (glcmVariance glcm) = Sqrt.nan := by
    unfold sqrt; rw [if_neg (not_le.mpr h)]
  rw [hs]
  have body : addCorrelation Sqrt.nan (glcmMean glcm) glcm
      = fun (_ : Option ℚ) _ _ => none := by
    funext c i j
    rfl
  rw [body, gridLoop_none]

/-! ## The pixel scan as a sum of contributions -/

theorem sum_map_range (f : Nat → ℚ) (n : Nat) :
    ((List.range n).map f).sum = ∑ i ∈ Finset.range n, f i := by
  induction n with
  | zero => simp
  | succ n ih => rw [List.range_succ, List.map_append, List.sum_append, ih,
      Finset.sum_range_succ]; simp

/-- A loop whose every step adds `w a b x` to cell `[a][b]` adds the sum of the
contributions. -/
theorem foldlM_cell_add {α : Type} (step : Glcm → α → Option Glcm)
    (w : GrayLevel → GrayLevel → α → ℚ) (l : List α)
    (h : ∀ x ∈ l, ∀ g, step g x = some ⟨fun a b => g.cell a b + w a b x⟩) (g : Glcm) :
    l.foldlM step g = some ⟨fun a b => g.cell a b + (l.map (w a b)).sum⟩ := by
  induction l generalizing g with
  | nil => simp [pure]
  | cons x xs ih =>
    rw [List.foldlM_cons, h x (List.mem_cons_self x xs) g]
    simp only [Option.bind_eq_bind, Option.some_bind]
    rw [ih (fun y hy => h y (List.mem_cons_of_mem x hy))]
    simp [add_assoc]

theorem readGray_isSome (grayImage : List GrayLevel) (width height x y : Int)
    (hlen : (grayImage.length : Int) = width * height)
    (hx0 : 0 ≤ x) (hx : x < width) (hy0 : 0 ≤ y) (hy : y < height) :
    ∃ a, readGray grayImage (y * width + x) = some a := by
  have h0 : 0 ≤ y * width + x := add_nonneg (mul_nonneg hy0 (by omega)) hx0
  have h1 : y * width + x < width * height := by nlinarith
  have h2 : (y * width + x).toNat < grayImage.length := by
    have : ((y * width + x).toNat : Int) < (grayImage.length : Int) := by
      rw [Int.toNat_of_nonneg h0, hlen]; exact h1
    exact_mod_cast this
  refine ⟨grayImage[(y * width + x).toNat], ?_⟩
  unfold readGray
  rw [if_pos h0, List.getElem?_eq_getElem h2]

theorem wrap32_of_range (z : Int) (h0 : 0 ≤ z) (h1 : z ≤ INT_MAX) : wrap32 z = z := by
  have h2 : z ≤ 2147483647 := h1
  unfold wrap32
  omega

/-- The index of a position of the image lies in `[0, width * height)`. -/
theorem index_in_range (width height x y : Int)
    (hx0 : 0 ≤ x) (hx : x < width) (hy0 : 0 ≤ y) (hy : y < height) :
    0 ≤ y * width + x ∧ y * width + x < width * height := by
  constructor
  · exact add_nonneg (mul_nonneg hy0 (by omega)) hx0
  · nlinarith

/-- For an image of at most `INT_MAX` pixels the `int` index of a position is
the exact one. -/
theorem wrap32_index (width height x y : Int) (hmax : width * height ≤ INT_MAX)
    (hx0 : 0 ≤ x) (hx : x < width) (hy0 : 0 ≤ y) (hy : y < height) :
    wrap32 (y * width + x) = y * width + x := by
  obtain ⟨h0, h1⟩ := index_in_range width height x y hx0 hx hy0 hy
  exact wrap32_of_range _ h0 (by have h2 : width * height ≤ 2147483647 := hmax; omega)

theorem inBounds_iff (width height newX newY : Int) :
    inBounds width height newX newY = true
      ↔ 0 ≤ newX ∧ newX < width ∧ 0 ≤ newY ∧ newY < height := by
  unfold inBounds
  simp [and_assoc]

theorem visit_eq (grayImage : List GrayLevel) (width height dx dy : Int) (y x : Nat)
    (hsize : inBounds width height ((x : Int) + dx) ((y : Int) + dy) = true →
      (grayImage.length : Int) = width * height ∧ width * height ≤ INT_MAX)
    (hy : (y : Int) < height) (hx : (x : Int) < width) (g : Glcm) :
    visit grayImage width height dx dy y x g
      = some ⟨fun a b => g.cell a b + hit grayImage width height dx dy a b y x⟩ := by
  unfold visit hit
  simp only []
  by_cases hb : inBounds width height ((x : Int) + dx) ((y : Int) + dy) = true
  · obtain ⟨h1, h2, h3, h4⟩ := (inBounds_iff _ _ _ _).mp hb
    obtain ⟨a0, ha0⟩ := readGray_isSome grayImage width height x y (hsize hb).1
      (Int.natCast_nonneg x) hx (Int.natCast_nonneg y) hy
    obtain ⟨b0, hb0⟩ := readGray_isSome grayImage width height _ _ (hsize hb).1 h1 h2 h3 h4
    have e1 := wrap32_index width height x y (hsize hb).2
      (Int.natCast_nonneg x) hx (Int.natCast_nonneg y) hy
    have e2 := wrap32_index width height _ _ (hsize hb).2 h1 h2 h3 h4
    rw [if_pos hb, e1, e2, ha0, hb0]
    simp only [increment, hb, true_and, Option.some.injEq]
    ext a b
    simp only []
    by_cases hab : a = a0 ∧ b = b0
    · obtain ⟨rfl, rfl⟩ := hab
      simp
    · have : ¬ (a0 = a ∧ b0 = b) := fun h => hab ⟨h.1.symm, h.2.symm⟩
      simp [hab, this]
  · rw [if_neg hb]
    refine congrArg some ?_
    ext a b
    simp [hb]

/-- The pixel scan returns, in cell `[a][b]`, the number of positions that
contribute to it.  The size of the buffer matters only if some position passes
the bounds test. -/
theorem countPairs_eq (grayImage : List GrayLevel) (width height dx dy : Int)
    (hsize : ∀ y x : Nat, (y : Int) < height → (x : Int) < width →
      inBounds width height ((x : Int) + dx) ((y : Int) + dy) = true →
      (grayImage.length : Int) = width * height ∧ width * height ≤ INT_MAX) :
    countPairs grayImage width height dx dy
      = some ⟨fun a b => ∑ y ∈ Finset.range height.toNat, ∑ x ∈ Finset.range width.toNat,
          hit grayImage width height dx dy a b y x⟩ := by
  unfold countPairs
  rw [foldlM_cell_add _
    (fun a b y => ∑ x ∈ Finset.range width.toNat, hit grayImage width height dx dy a b y x)]
  · refine congrArg some ?_
    ext a b
    simp only [zero_add]
    exact sum_map_range _ _
  · intro y hy g
    rw [foldlM_cell_add _ (fun a b x => hit grayImage width height dx dy a b y x)]
    · refine congrArg some ?_
      ext a b
      simp only []
      rw [sum_map_range]
    · intro x hx g
      have hy1 : (y : Int) < height := by
        have := List.mem_range.mp hy
        omega
      have hx1 : (x : Int) < width := by
        have := List.mem_range.mp hx
        omega
      exact visit_eq grayImage width height dx dy y x (hsize y x hy1 hx1) hy1 hx1 g


/-! ## Contributions and the pair counts of the specification -/

theorem gray_eq_readGray (grayImage : List GrayLevel) (width x y : Int) :
    Spec.gray grayImage width x y = readGray grayImage (y * width + x) := rfl

theorem hit_eq_ite (grayImage : List GrayLevel) (width height dx dy : Int)
    (a b : GrayLevel) (y x : Nat) :
    hit grayImage width height dx dy a b y x
      = if (Spec.inImage width height ((x : Int) + dx) ((y : Int) + dy) ∧
            (Spec.gray grayImage width x y = some a ∧
              Spec.gray grayImage width ((x : Int) + dx) ((y : Int) + dy) = some b))
        then 1 else 0 := by
  unfold hit
  simp only [inBounds_iff, gray_eq_readGray, Spec.inImage]

/-- The scan's count in cell `[a][b]` is the number of valid positions with
gray values `a` and `b`. -/
theorem sum_hit_eq_card (grayImage : List GrayLevel) (width height dx dy : Int)
    (a b : GrayLevel) :
    (∑ y ∈ Finset.range height.toNat, ∑ x ∈ Finset.range width.toNat,
        hit grayImage width height dx dy a b y x)
      = ((Spec.pairPositions grayImage width height dx dy a b).card : ℚ) := by
  unfold Spec.pairPositions Spec.validPositions Spec.positions
  rw [Finset.filter_filter, Finset.natCast_card_filter, Finset.sum_product_right]
  refine Finset.sum_congr rfl (fun y _ => Finset.sum_congr rfl (fun x _ => ?_))
  rw [hit_eq_ite]

theorem mem_validPositions (width height dx dy : Int) (x y : Nat) :
    (x, y) ∈ Spec.validPositions width height dx dy
      ↔ (x : Int) < width ∧ (y : Int) < height ∧
          Spec.inImage width height ((x : Int) + dx) ((y : Int) + dy) := by
  unfold Spec.validPositions Spec.positions
  simp only [Finset.mem_filter, Finset.mem_product, Finset.mem_range]
  constructor
  · rintro ⟨⟨h1, h2⟩, h3⟩
    exact ⟨by omega, by omega, h3⟩
  · rintro ⟨h1, h2, h3⟩
    exact ⟨⟨by omega, by omega⟩, h3⟩

theorem sum_comm4 {A B C D : Type} (sa : Finset A) (sb : Finset B) (sc : Finset C)
    (sd : Finset D) (h : A → B → C → D → ℚ) :
    ∑ a ∈ sa, ∑ b ∈ sb, ∑ c ∈ sc, ∑ d ∈ sd, h a b c d
      = ∑ c ∈ sc, ∑ d ∈ sd, ∑ a ∈ sa, ∑ b ∈ sb, h a b c d := by
  calc ∑ a ∈ sa, ∑ b ∈ sb, ∑ c ∈ sc, ∑ d ∈ sd, h a b c d
      = ∑ a ∈ sa, ∑ c ∈ sc, ∑ b ∈ sb, ∑ d ∈ sd, h a b c d :=
        Finset.sum_congr rfl (fun a _ => Finset.sum_comm)
    _ = ∑ c ∈ sc, ∑ a ∈ sa, ∑ b ∈ sb, ∑ d ∈ sd, h a b c d := Finset.sum_comm
    _ = ∑ c ∈ sc, ∑ a ∈ sa, ∑ d ∈ sd, ∑ b ∈ sb, h a b c d :=
        Finset.sum_congr rfl (fun c _ => Finset.sum_congr rfl (fun a _ => Finset.sum_comm))
    _ = ∑ c ∈ sc, ∑ d ∈ sd, ∑ a ∈ sa, ∑ b ∈ sb, h a b c d :=
        Finset.sum_congr rfl (fun c _ => Finset.sum_comm)

/-- A position that passes the bounds test contributes to exactly one cell. -/
theorem sum_cells_hit (grayImage : List GrayLevel) (width height dx dy : Int) (y x : Nat)
    (hlen : inBounds width height ((x : Int) + dx) ((y : Int) + dy) = true →
      (grayImage.length : Int) = width * height)
    (hy : (y : Int) < height) (hx : (x : Int) < width) :
    (∑ a : GrayLevel, ∑ b : GrayLevel, hit grayImage width height dx dy a b y x)
      = if Spec.inImage width height ((x : Int) + dx) ((y : Int) + dy) then 1 else 0 := by
  by_cases hb : inBounds width height ((x : Int) + dx) ((y : Int) + dy) = true
  · have hin : Spec.inImage width height ((x : Int) + dx) ((y : Int) + dy) :=
      (inBounds_iff _ _ _ _).mp hb
    obtain ⟨h1, h2, h3, h4⟩ := hin
    obtain ⟨a0, ha0⟩ := readGray_isSome grayImage width height x y (hlen hb)
      (Int.natCast_nonneg x) hx (Int.natCast_nonneg y) hy
    obtain ⟨b0, hb0⟩ := readGray_isSome grayImage width height _ _ (hlen hb) h1 h2 h3 h4
    have hcell : ∀ a b : GrayLevel, hit grayImage width height dx dy a b y x
        = if a = a0 then (if b = b0 then 1 else 0) else 0 := by
      intro a b
      unfold hit
      rw [ha0, hb0]
      simp only [hb, true_and, Option.some.injEq]
      by_cases e1 : a0 = a
      · by_cases e2 : b0 = b
        · simp [e1, e2]
        · have : ¬ b = b0 := fun h => e2 h.symm
          simp [e1, e2, this]
      · have : ¬ a = a0 := fun h => e1 h.symm
        simp [e1, this]
    simp only [hcell]
    rw [if_pos (show Spec.inImage width height ((x : Int) + dx) ((y : Int) + dy) from
      ⟨h1, h2, h3, h4⟩)]
    simp
  · have hcell : ∀ a b : GrayLevel, hit grayImage width height dx dy a b y x = 0 := by
      intro a b
      unfold hit
      simp [hb]
    have hin : ¬ Spec.inImage width height ((x : Int) + dx) ((y : Int) + dy) :=
      fun h => hb ((inBounds_iff _ _ _ _).mpr h)
    simp only [hcell, if_neg hin]
    simp

/-- The cells of the scan add up to the number of valid positions. -/
theorem sum_card_pairPositions (grayImage : List GrayLevel) (width height dx dy : Int)
    (hlen : (Spec.validPositions width height dx dy).Nonempty →
      (grayImage.length : Int) = width * height) :
    (∑ a : GrayLevel, ∑ b : GrayLevel,
        ((Spec.pairPositions grayImage width height dx dy a b).card : ℚ))
      = ((Spec.validPositions width height dx dy).card : ℚ) := by
  simp only [← sum_hit_eq_card]
  rw [sum_comm4]
  unfold Spec.validPositions Spec.positions
  rw [Finset.natCast_card_filter, Finset.sum_product_right]
  refine Finset.sum_congr rfl (fun y hy => Finset.sum_congr rfl (fun x hx => ?_))
  have hy1 : (y : Int) < height := by
    have := Finset.mem_range.mp hy
    omega
  have hx1 : (x : Int) < width := by
    have := Finset.mem_range.mp hx
    omega
  refine sum_cells_hit grayImage width height dx dy y x (fun hb => hlen ⟨(x, y), ?_⟩) hy1 hx1
  exact (mem_validPositions _ _ _ _ _ _).mpr ⟨hx1, hy1, (inBounds_iff _ _ _ _).mp hb⟩

/-- The pixel scan in the terms of the specification: cell `[a][b]` holds the
number of valid positions with gray values `a` and `b`. -/
theorem countPairs_eq_card (grayImage : List GrayLevel) (width height dx dy : Int)
    (hsize : (Spec.validPositions width height dx dy).Nonempty →
      (grayImage.length : Int) = width * height ∧ width * height ≤ INT_MAX) :
    countPairs grayImage width height dx dy
      = some ⟨fun a b =>
          ((Spec.pairPositions grayImage width height dx dy a b).card : ℚ)⟩ := by
  rw [countPairs_eq]
  · refine congrArg some ?_
    ext a b
    exact sum_hit_eq_card _ _ _ _ _ _ _
  · intro y x hy hx hb
    exact hsize ⟨(x, y), (mem_validPositions _ _ _ _ _ _).mpr
      ⟨hx, hy, (inBounds_iff _ _ _ _).mp hb⟩⟩

/-- The normalisation sum of the scan is the number of valid positions. -/
theorem glcmSum_counts (grayImage : List GrayLevel) (width height dx dy : Int)
    (hlen : (Spec.validPositions width height dx dy).Nonempty →
      (grayImage.length : Int) = width * height) :
    glcmSum ⟨fun a b => ((Spec.pairPositions grayImage width height dx dy a b).card : ℚ)⟩
      = ((Spec.validPositions width height dx dy).card : ℚ) := by
  rw [glcmSum_eq]
  exact sum_card_pairPositions grayImage width height dx dy hlen

theorem card_pairPositions_le (grayImage : List GrayLevel) (width height dx dy : Int)
    (a b : GrayLevel) :
    (Spec.pairPositions grayImage width height dx dy a b).card
      ≤ (Spec.validPositions width height dx dy).card :=
  Finset.card_le_card (Finset.filter_subset _ _)

theorem normalize_of_ne (glcm : Glcm) (h : glcmSum glcm ≠ 0) :
    normalize glcm = ⟨fun i j => glcm.cell i j / glcmSum glcm⟩ := by
  rw [normalize]
  exact if_pos h

theorem normalize_of_eq (glcm : Glcm) (h : glcmSum glcm = 0) : normalize glcm = glcm := by
  rw [normalize]
  exact if_neg (not_not.mpr h)

theorem normalize_cell (glcm : Glcm) (a b : GrayLevel) :
    (normalize glcm).cell a b
      = if glcmSum glcm ≠ 0 then glcm.cell a b / glcmSum glcm else glcm.cell a b := by
  by_cases h : glcmSum glcm ≠ 0
  · rw [normalize_of_ne glcm h, if_pos h]
  · rw [normalize_of_eq glcm (not_not.mp h), if_neg h]

theorem calculateGLCM_eq_normalize (grayImage : List GrayLevel)
    (width height distance angle : Int)
    (hsize : (Spec.validPositions width height (direction distance angle).1
        (direction distance angle).2).Nonempty →
      (grayImage.length : Int) = width * height ∧ width * height ≤ INT_MAX) :
    calculateGLCM grayImage width height distance angle
      = some (normalize ⟨fun a b =>
          ((Spec.pairPositions grayImage width height (direction distance angle).1
              (direction distance angle).2 a b).card : ℚ)⟩) := by
  unfold calculateGLCM
  rw [countPairs_eq_card grayImage width height _ _ hsize, Option.map_some']

/-- The result of `calculateGLCM`, cell by cell. -/
theorem calculateGLCM_cell (grayImage : List GrayLevel) (width height distance angle : Int)
    (hsize : (Spec.validPositions width height (direction distance angle).1
        (direction distance angle).2).Nonempty →
      (grayImage.length : Int) = width * height ∧ width * height ≤ INT_MAX) :
    ∃ m, calculateGLCM grayImage width height distance angle = some m ∧
      ∀ a b, m.cell a b
        = ((Spec.pairPositions grayImage width height (direction distance angle).1
              (direction distance angle).2 a b).card : ℚ)
          / ((Spec.validPositions width height (direction distance angle).1
              (direction distance angle).2).card : ℚ) := by
  refine ⟨_, calculateGLCM_eq_normalize grayImage width height distance angle hsize, ?_⟩
  intro a b
  rw [normalize_cell, glcmSum_counts grayImage width height _ _ (fun h => (hsize h).1)]
  simp only []
  by_cases hz : ((Spec.validPositions width height (direction distance angle).1
      (direction distance angle).2).card : ℚ) = 0
  · rw [if_neg (not_not.mpr hz), hz, div_zero]
    have h0 : (Spec.validPositions width height (direction distance angle).1
        (direction distance angle).2).card = 0 := by exact_mod_cast hz
    have := card_pairPositions_le grayImage width height (direction distance angle).1
      (direction distance angle).2 a b
    have h1 : (Spec.pairPositions grayImage width height (direction distance angle).1
        (direction distance angle).2 a b).card = 0 := by omega
    simp [h1]
  · rw [if_pos hz]

/-! ## Valid positions -/

theorem validPositions_nonempty_iff (width height dx dy : Int) :
    (Spec.validPositions width height dx dy).Nonempty
      ↔ ∃ x y : Nat, (x : Int) < width ∧ (y : Int) < height ∧
          Spec.inImage width height ((x : Int) + dx) ((y : Int) + dy) := by
  constructor
  · rintro ⟨⟨x, y⟩, hp⟩
    exact ⟨x, y, (mem_validPositions _ _ _ _ _ _).mp hp⟩
  · rintro ⟨x, y, h⟩
    exact ⟨(x, y), (mem_validPositions _ _ _ _ _ _).mpr h⟩

theorem validPositions_card_eq_zero_iff (width height dx dy : Int) :
    (Spec.validPositions width height dx dy).card = 0
      ↔ ∀ x y : Nat, (x : Int) < width → (y : Int) < height →
          ¬ Spec.inImage width height ((x : Int) + dx) ((y : Int) + dy) := by
  rw [Finset.card_eq_zero, ← Finset.not_nonempty_iff_eq_empty, validPositions_nonempty_iff]
  constructor
  · intro h x y hx hy hin
    exact h ⟨x, y, hx, hy, hin⟩
  · rintro h ⟨x, y, hx, hy, hin⟩
    exact h x y hx hy hin

/-- For a horizontal offset `0 < d < width` the valid positions are the
`width - d` leftmost columns. -/
theorem validPositions_horizontal (width height d : Int) (hd : 0 < d) :
    Spec.validPositions width height d 0
      = Finset.range (width - d).toNat ×ˢ Finset.range height.toNat := by
  ext ⟨x, y⟩
  rw [mem_validPositions]
  simp only [Spec.inImage, Finset.mem_product, Finset.mem_range]
  constructor
  · rintro ⟨h1, h2, h3, h4, h5, h6⟩
    exact ⟨by omega, by omega⟩
  · rintro ⟨h1, h2⟩
    refine ⟨by omega, by omega, by omega, by omega, by omega, by omega⟩

theorem height_nonneg_of_length (grayImage : List GrayLevel) (width height : Int)
    (hlen : (grayImage.length : Int) = width * height) (hw : 0 < width) : 0 ≤ height := by
  by_contra hneg
  have h1 : height ≤ -1 := by omega
  have h2 : width * height ≤ width * (-1) := mul_le_mul_of_nonneg_left h1 hw.le
  have h3 : (0 : Int) ≤ (grayImage.length : Int) := Int.natCast_nonneg _
  omega

theorem validPositions_horizontal_card (grayImage : List GrayLevel)
    (width height d : Int) (hlen : (grayImage.length : Int) = width * height)
    (hd : 0 < d) (hdw : d < width) :
    ((Spec.validPositions width height d 0).card : Int) = (width - d) * height := by
  have hh := height_nonneg_of_length grayImage width height hlen (by omega)
  rw [validPositions_horizontal width height d hd, Finset.card_product, Finset.card_range,
    Finset.card_range]
  push_cast
  rw [Int.toNat_of_nonneg (by omega), Int.toNat_of_nonneg hh]

/-! ## Images of more than `INT_MAX` pixels -/

/-- A loop fails as soon as one of its steps fails. -/
theorem foldlM_none_of_mem {α σ : Type} (step : σ → α → Option σ) (l : List α) (x : α)
    (hx : x ∈ l) (h : ∀ s, step s x = none) (s : σ) : l.foldlM step s = none := by
  induction l generalizing s with
  | nil => exact absurd hx (List.not_mem_nil x)
  | cons a as ih =>
    rw [List.foldlM_cons]
    rcases List.mem_cons.mp hx with rfl | hmem
    · rw [h s]
      rfl
    · cases hstep : step s a with
      | none => rfl
      | some s1 =>
        simp only [Option.bind_eq_bind, Option.some_bind]
        exact ih hmem s1

/-- When a position passes the bounds test and its `int` index is negative, the
read is outside the buffer and the scan has no result. -/
theorem countPairs_none_of_negative_index (grayImage : List GrayLevel)
    (width height dx dy : Int) (y x : Nat)
    (hy : (y : Int) < height) (hx : (x : Int) < width)
    (hb : inBounds width height ((x : Int) + dx) ((y : Int) + dy) = true)
    (hneg : wrap32 ((y : Int) * width + (x : Int)) < 0) :
    countPairs grayImage width height dx dy = none := by
  unfold countPairs
  refine foldlM_none_of_mem _ _ y (List.mem_range.mpr (by omega)) (fun g => ?_) _
  refine foldlM_none_of_mem _ _ x (List.mem_range.mpr (by omega)) (fun g1 => ?_) _
  unfold visit
  simp only []
  have hread : readGray grayImage (wrap32 ((y : Int) * width + (x : Int))) = none := by
    unfold readGray
    rw [if_neg (not_le.mpr hneg)]
  rw [if_pos hb, hread]

theorem calculateGLCM_none_of_negative_index (grayImage : List GrayLevel)
    (width height distance angle : Int) (y x : Nat)
    (hy : (y : Int) < height) (hx : (x : Int) < width)
    (hb : inBounds width height ((x : Int) + (direction distance angle).1)
      ((y : Int) + (direction distance angle).2) = true)
    (hneg : wrap32 ((y : Int) * width + (x : Int)) < 0) :
    calculateGLCM grayImage width height distance angle = none := by
  unfold calculateGLCM
  rw [countPairs_none_of_negative_index grayImage width height _ _ y x hy hx hb hneg]
  rfl

theorem hugeGray_length : (hugeGray.length : Int) = 65536 * 32769 := by
  unfold hugeGray
  rw [List.length_replicate]
  norm_num

/-- On the image of `65536 × 32769` pixels the index of position `(0, 32768)`
is `2 ^ 31`, which a 32-bit `int` holds as `-2 ^ 31`: `calculateGLCM` reads
outside the buffer, for every buffer and every direction in which that
position passes the bounds test. -/
theorem calculateGLCM_overflow (grayImage : List GrayLevel) (distance angle : Int)
    (hb : inBounds 65536 32769 (((0 : Nat) : Int) + (direction distance angle).1)
      (((32768 : Nat) : Int) + (direction distance angle).2) = true) :
    calculateGLCM grayImage 65536 32769 distance angle = none :=
  calculateGLCM_none_of_negative_index grayImage 65536 32769 distance angle 32768 0
    (by decide) (by decide) hb (by decide)

/-! ## Claims on `calculateGLCM` -/

/-- C1, amended: for a gray buffer of length `width * height ≤ INT_MAX`, every
distance and every angle, `calculateGLCM` returns a matrix whose 65536 entries
are all `≥ 0`, and either the entries sum to 1 or every entry is 0. -/
theorem calculateGLCM_nonneg_and_normalized (grayImage : List GrayLevel)
    (width height distance angle : Int)
    (hlen : (grayImage.length : Int) = width * height)
    (hmax : width * height ≤ INT_MAX) :
    ∃ m, calculateGLCM grayImage width height distance angle = some m ∧
      (∀ a b, 0 ≤ m.cell a b) ∧
      ((∑ a : GrayLevel, ∑ b : GrayLevel, m.cell a b) = 1 ∨ ∀ a b, m.cell a b = 0) := by
  obtain ⟨m, hm, hcell⟩ :=
    calculateGLCM_cell grayImage width height distance angle (fun _ => ⟨hlen, hmax⟩)
  refine ⟨m, hm, ?_, ?_⟩
  · intro a b
    rw [hcell]
    exact div_nonneg (Nat.cast_nonneg _) (Nat.cast_nonneg _)
  · by_cases hz : ((Spec.validPositions width height (direction distance angle).1
        (direction distance angle).2).card : ℚ) = 0
    · right
      intro a b
      rw [hcell, hz, div_zero]
    · left
      simp only [hcell]
      simp only [← Finset.sum_div]
      rw [sum_card_pairPositions grayImage width height _ _ (fun _ => hlen)]
      exact div_self hz

theorem calculateGLCM_nonneg_and_normalized_witness :
    ∃ m, calculateGLCM [0, 255, 255, 0] 2 2 1 0 = some m ∧
      (∀ a b, 0 ≤ m.cell a b) ∧
      ((∑ a : GrayLevel, ∑ b : GrayLevel, m.cell a b) = 1 ∨ ∀ a b, m.cell a b = 0) :=
  calculateGLCM_nonneg_and_normalized [0, 255, 255, 0] 2 2 1 0 (by decide) (by decide)

/-- C1 as stated fails above `INT_MAX` pixels: for the uniform buffer of
`65536 * 32769` pixels, distance 1 and angle 0, the `int` index of position
`(0, 32768)` is negative and `calculateGLCM` returns no matrix. -/
theorem calculateGLCM_nonneg_and_normalized_counterexample :
    (hugeGray.length : Int) = 65536 * 32769 ∧
    calculateGLCM hugeGray 65536 32769 1 0 = none :=
  ⟨hugeGray_length, calculateGLCM_overflow hugeGray 1 0 (by decide)⟩

/-- C2, amended: for a gray buffer of length `width * height ≤ INT_MAX`: for
angle 0 the offset is `(distance, 0)`, for angle 90 it is `(0, -distance)`;
when some position has its offset position inside the image,
every entry `[a][b]` of the matrix returned by `calculateGLCM` is the number of
valid positions with gray values `a` and `b` divided by the number of valid
positions, and for angle 0 with `0 < distance < width` that number is
`(width - distance) * height`. -/
theorem calculateGLCM_entries (grayImage : List GrayLevel)
    (width height distance angle dx dy : Int)
    (hlen : (grayImage.length : Int) = width * height)
    (hmax : width * height ≤ INT_MAX)
    (hdir : (angle = 0 ∧ dx = distance ∧ dy = 0) ∨ (angle = 90 ∧ dx = 0 ∧ dy = -distance))
    (hvalid : ∃ x y : Nat, (x : Int) < width ∧ (y : Int) < height ∧
      Spec.inImage width height ((x : Int) + dx) ((y : Int) + dy)) :
    ∃ m, calculateGLCM grayImage width height distance angle = some m ∧
      (Spec.validPositions width height dx dy).card ≠ 0 ∧
      (∀ a b, m.cell a b
        = ((Spec.pairPositions grayImage width height dx dy a b).card : ℚ)
          / ((Spec.validPositions width height dx dy).card : ℚ)) ∧
      (angle = 0 → 0 < distance → distance < width →
        ((Spec.validPositions width height dx dy).card : Int) = (width - distance) * height) := by
  have hd : direction distance angle = (dx, dy) := by
    unfold direction
    rcases hdir with ⟨h1, h2, h3⟩ | ⟨h1, h2, h3⟩
    · rw [if_pos h1, h2, h3]
    · rw [if_neg (by omega), if_pos h1, h2, h3]
  obtain ⟨m, hm, hcell⟩ :=
    calculateGLCM_cell grayImage width height distance angle (fun _ => ⟨hlen, hmax⟩)
  rw [hd] at hcell
  refine ⟨m, hm, ?_, hcell, ?_⟩
  · exact Finset.card_ne_zero.mpr ((validPositions_nonempty_iff _ _ _ _).mpr hvalid)
  · intro ha h0 hw
    rcases hdir with ⟨_, h2, h3⟩ | ⟨h1, _, _⟩
    · rw [h2, h3]
      exact validPositions_horizontal_card grayImage width height distance hlen h0 hw
    · omega

theorem calculateGLCM_entries_witness :
    ∃ m, calculateGLCM [0, 255, 255, 0] 2 2 1 0 = some m ∧
      (Spec.validPositions 2 2 1 0).card ≠ 0 ∧
      (∀ a b, m.cell a b
        = ((Spec.pairPositions [0, 255, 255, 0] 2 2 1 0 a b).card : ℚ)
          / ((Spec.validPositions 2 2 1 0).card : ℚ)) ∧
      ((Spec.validPositions 2 2 1 0).card : Int) = (2 - 1) * 2 :=
  let ⟨m, h1, h2, h3, h4⟩ := calculateGLCM_entries [0, 255, 255, 0] 2 2 1 0 1 0 (by decide)
    (by decide) (Or.inl ⟨rfl, rfl, rfl⟩) ⟨0, 0, by decide, by decide, by decide⟩
  ⟨m, h1, h2, h3, h4 rfl (by decide) (by decide)⟩

/-- C2 as stated fails above `INT_MAX` pixels: for the uniform buffer of
`65536 * 32769` pixels, distance 1 and angle 0, position `(0, 0)` has its
offset position inside the image, yet `calculateGLCM` returns no matrix. -/
theorem calculateGLCM_entries_counterexample :
    (hugeGray.length : Int) = 65536 * 32769 ∧
    (∃ x y : Nat, (x : Int) < 65536 ∧ (y : Int) < 32769 ∧
      Spec.inImage 65536 32769 ((x : Int) + 1) ((y : Int) + 0)) ∧
    calculateGLCM hugeGray 65536 32769 1 0 = none :=
  ⟨hugeGray_length, ⟨0, 0, by decide, by decide, by decide⟩,
    calculateGLCM_overflow hugeGray 1 0 (by decide)⟩

theorem direction_zero (distance : Int) : direction distance 0 = (distance, 0) := by
  unfold direction
  rw [if_pos rfl]

theorem direction_ninety (distance : Int) : direction distance 90 = (0, -distance) := by
  unfold direction
  rw [if_neg (by decide), if_pos rfl]

/-- With no valid position the matrix returned by `calculateGLCM` is all zero,
whatever the buffer. -/
theorem calculateGLCM_zero_of_no_valid (grayImage : List GrayLevel)
    (width height distance angle : Int)
    (hnone : (Spec.validPositions width height (direction distance angle).1
        (direction distance angle).2).card = 0) :
    ∃ m, calculateGLCM grayImage width height distance angle = some m ∧
      ∀ a b, m.cell a b = 0 := by
  have hne : ¬ (Spec.validPositions width height (direction distance angle).1
      (direction distance angle).2).Nonempty := by
    rw [Finset.not_nonempty_iff_eq_empty]
    exact Finset.card_eq_zero.mp hnone
  obtain ⟨m, hm, hcell⟩ := calculateGLCM_cell grayImage width height distance angle
    (fun h => absurd h hne)
  refine ⟨m, hm, fun a b => ?_⟩
  rw [hcell, hnone]
  simp

/-- The uniform image: every read gives `v`. -/
theorem gray_uniform (grayImage : List GrayLevel) (v a : GrayLevel) (width x y : Int)
    (hu : ∀ g ∈ grayImage, g = v) (h : Spec.gray grayImage width x y = some a) : a = v := by
  unfold Spec.gray at h
  split_ifs at h
  exact hu a (List.getElem?_mem h)

/-- C3, amended: for a uniform gray image (every pixel `v`) with `width ≥ 2`,
`height ≥ 1` and `width * height ≤ INT_MAX`, `calculateGLCM` with distance 1
and angle 0 returns a matrix with `[v][v] = 1` and every other cell 0. -/
theorem calculateGLCM_uniform (grayImage : List GrayLevel) (width height : Int)
    (v : GrayLevel) (hlen : (grayImage.length : Int) = width * height)
    (hmax : width * height ≤ INT_MAX)
    (hu : ∀ g ∈ grayImage, g = v) (hw : 2 ≤ width) (hh : 1 ≤ height) :
    ∃ m, calculateGLCM grayImage width height 1 0 = some m ∧
      m.cell v v = 1 ∧ ∀ a b, (a ≠ v ∨ b ≠ v) → m.cell a b = 0 := by
  obtain ⟨m, hm, hcell⟩ :=
    calculateGLCM_cell grayImage width height 1 0 (fun _ => ⟨hlen, hmax⟩)
  rw [direction_zero] at hcell
  simp only [] at hcell
  have hother : ∀ a b, (a ≠ v ∨ b ≠ v) →
      (Spec.pairPositions grayImage width height 1 0 a b).card = 0 := by
    intro a b hab
    rw [Finset.card_eq_zero]
    unfold Spec.pairPositions
    rw [Finset.filter_eq_empty_iff]
    rintro p _ ⟨h1, h2⟩
    rcases hab with h | h
    · exact h (gray_uniform grayImage v a width _ _ hu h1)
    · exact h (gray_uniform grayImage v b width _ _ hu h2)
  have hpos : (Spec.validPositions width height 1 0).card ≠ 0 := by
    refine Finset.card_ne_zero.mpr ((validPositions_nonempty_iff _ _ _ _).mpr ⟨0, 0, ?_⟩)
    refine ⟨by simp; omega, by simp; omega, ?_⟩
    unfold Spec.inImage
    simp
    omega
  have hsum := sum_card_pairPositions grayImage width height 1 0 (fun _ => hlen)
  have hvv : ((Spec.pairPositions grayImage width height 1 0 v v).card : ℚ)
      = ((Spec.validPositions width height 1 0).card : ℚ) := by
    rw [← hsum]
    rw [Finset.sum_eq_single v, Finset.sum_eq_single v]
    · intro b _ hb
      rw [hother v b (Or.inr hb)]; simp
    · intro h; exact absurd (Finset.mem_univ v) h
    · intro a _ ha
      refine Finset.sum_eq_zero (fun b _ => ?_)
      rw [hother a b (Or.inl ha)]; simp
    · intro h; exact absurd (Finset.mem_univ v) h
  refine ⟨m, hm, ?_, ?_⟩
  · rw [hcell, hvv]
    exact div_self (by exact_mod_cast hpos)
  · intro a b hab
    rw [hcell, hother a b hab]
    simp

theorem calculateGLCM_uniform_witness :
    ∃ m, calculateGLCM [7, 7] 2 1 1 0 = some m ∧
      m.cell 7 7 = 1 ∧ ∀ a b, (a ≠ 7 ∨ b ≠ 7) → m.cell a b = 0 :=
  calculateGLCM_uniform [7, 7] 2 1 7 (by decide) (by decide) (by simp) (by decide)
    (by decide)

/-- C3 as stated fails: the uniform `1 × 1` image `[7]`, distance 1, angle 0,
gives the all-zero matrix, so cell `[7][7]` is not 1 and no cell is nonzero;
and for the uniform image of `65536 × 32769` pixels `calculateGLCM` returns no
matrix. -/
theorem calculateGLCM_uniform_counterexample :
    (∃ m, calculateGLCM [7] 1 1 1 0 = some m ∧
      (∀ a b, m.cell a b = 0) ∧ m.cell 7 7 ≠ 1) ∧
    ((hugeGray.length : Int) = 65536 * 32769 ∧ (∀ g ∈ hugeGray, g = 7) ∧
      calculateGLCM hugeGray 65536 32769 1 0 = none) := by
  refine ⟨?_, hugeGray_length, fun g hg => (List.eq_of_mem_replicate hg),
    calculateGLCM_overflow hugeGray 1 0 (by decide)⟩
  have hnone : (Spec.validPositions 1 1 (direction 1 0).1 (direction 1 0).2).card = 0 := by
    rw [validPositions_card_eq_zero_iff, direction_zero]
    intro x y hx hy hin
    unfold Spec.inImage at hin
    omega
  obtain ⟨m, hm, hz⟩ := calculateGLCM_zero_of_no_valid [7] 1 1 1 0 hnone
  refine ⟨m, hm, hz, ?_⟩
  rw [hz]
  exact zero_ne_one

/-- C4: when the image is smaller than the offset in the offset direction
(angle 0 with `width ≤ distance`, or angle 90 with `height ≤ distance`),
`calculateGLCM` returns the matrix whose 65536 entries are all 0.  This holds
for every buffer and every distance, in particular for `distance > 0`. -/
theorem calculateGLCM_zero_of_small (grayImage : List GrayLevel)
    (width height distance angle : Int)
    (hsmall : (angle = 0 ∧ width ≤ distance) ∨ (angle = 90 ∧ height ≤ distance)) :
    ∃ m, calculateGLCM grayImage width height distance angle = some m ∧
      ∀ a b, m.cell a b = 0 := by
  refine calculateGLCM_zero_of_no_valid grayImage width height distance angle ?_
  rw [validPositions_card_eq_zero_iff]
  intro x y hx hy hin
  unfold Spec.inImage at hin
  rcases hsmall with ⟨h1, h2⟩ | ⟨h1, h2⟩
  · rw [h1, direction_zero] at hin
    simp only [] at hin
    omega
  · rw [h1, direction_ninety] at hin
    simp only [] at hin
    omega

theorem calculateGLCM_zero_of_small_witness :
    ∃ m, calculateGLCM [7, 9, 11] 1 3 1 0 = some m ∧ ∀ a b, m.cell a b = 0 :=
  calculateGLCM_zero_of_small [7, 9, 11] 1 3 1 0 (Or.inl ⟨rfl, by decide⟩)

/-- C5, amended: for a gray buffer of length `width * height ≤ INT_MAX`, the
normalisation sum of `calculateGLCM` is zero if and only if no position of the
image has its offset position within the image bounds; in that case the matrix
is left as it is, all zero, and nothing is divided. -/
theorem normalisation_sum_zero_iff (grayImage : List GrayLevel)
    (width height distance angle : Int)
    (hlen : (grayImage.length : Int) = width * height)
    (hmax : width * height ≤ INT_MAX) :
    ∃ counts, countPairs grayImage width height (direction distance angle).1
        (direction distance angle).2 = some counts ∧
      calculateGLCM grayImage width height distance angle = some (normalize counts) ∧
      (glcmSum counts = 0 ↔
        ∀ x y : Nat, (x : Int) < width → (y : Int) < height →
          ¬ Spec.inImage width height ((x : Int) + (direction distance angle).1)
            ((y : Int) + (direction distance angle).2)) ∧
      (glcmSum counts = 0 → normalize counts = counts ∧ ∀ a b, counts.cell a b = 0) := by
  have hc := countPairs_eq_card grayImage width height (direction distance angle).1
    (direction distance angle).2 (fun _ => ⟨hlen, hmax⟩)
  have hs := glcmSum_counts grayImage width height (direction distance angle).1
    (direction distance angle).2 (fun _ => hlen)
  refine ⟨_, hc, ?_, ?_, ?_⟩
  · unfold calculateGLCM
    rw [hc, Option.map_some']
  · rw [hs, ← validPositions_card_eq_zero_iff]
    exact Nat.cast_eq_zero
  · intro h0
    refine ⟨normalize_of_eq _ h0, fun a b => ?_⟩
    rw [hs] at h0
    have h1 : (Spec.validPositions width height (direction distance angle).1
        (direction distance angle).2).card = 0 := by exact_mod_cast h0
    have h2 := card_pairPositions_le grayImage width height (direction distance angle).1
      (direction distance angle).2 a b
    have h3 : (Spec.pairPositions grayImage width height (direction distance angle).1
        (direction distance angle).2 a b).card = 0 := by omega
    simp only [h3, Nat.cast_zero]

theorem normalisation_sum_zero_iff_witness :
    ∃ counts, countPairs [0, 255, 255, 0] 2 2 (direction 1 0).1 (direction 1 0).2
        = some counts ∧
      calculateGLCM [0, 255, 255, 0] 2 2 1 0 = some (normalize counts) ∧
      (glcmSum counts = 0 ↔
        ∀ x y : Nat, (x : Int) < 2 → (y : Int) < 2 →
          ¬ Spec.inImage 2 2 ((x : Int) + (direction 1 0).1) ((y : Int) + (direction 1 0).2)) ∧
      (glcmSum counts = 0 → normalize counts = counts ∧ ∀ a b, counts.cell a b = 0) :=
  normalisation_sum_zero_iff [0, 255, 255, 0] 2 2 1 0 (by decide) (by decide)

/-- C5 as stated fails above `INT_MAX` pixels: for the uniform buffer of
`65536 * 32769` pixels, distance 1 and angle 0, the scan reads outside the
buffer and has no result, so no normalisation sum is formed. -/
theorem normalisation_sum_zero_iff_counterexample :
    (hugeGray.length : Int) = 65536 * 32769 ∧
    countPairs hugeGray 65536 32769 (direction 1 0).1 (direction 1 0).2 = none ∧
    calculateGLCM hugeGray 65536 32769 1 0 = none :=
  ⟨hugeGray_length,
    countPairs_none_of_negative_index hugeGray 65536 32769 _ _ 32768 0
      (by decide) (by decide) (by decide) (by decide),
    calculateGLCM_overflow hugeGray 1 0 (by decide)⟩

/-! ## Sparse matrices -/

/-- A double sum over the grid of a function that vanishes outside `S` is the
sum over `S`. -/
theorem grid_sum_eq_sum_support (S : Finset (GrayLevel × GrayLevel))
    (f : GrayLevel → GrayLevel → ℚ) (h : ∀ i j, (i, j) ∉ S → f i j = 0) :
    (∑ i : GrayLevel, ∑ j : GrayLevel, f i j) = ∑ p ∈ S, f p.1 p.2 := by
  rw [← Finset.sum_product' Finset.univ Finset.univ f]
  symm
  refine Finset.sum_subset (Finset.subset_univ S) ?_
  rintro ⟨i, j⟩ _ hp
  exact h i j hp

theorem grid_sum_single (a b : GrayLevel) (f : GrayLevel → GrayLevel → ℚ)
    (h : ∀ i j, (i ≠ a ∨ j ≠ b) → f i j = 0) :
    (∑ i : GrayLevel, ∑ j : GrayLevel, f i j) = f a b := by
  rw [grid_sum_eq_sum_support {(a, b)} f, Finset.sum_singleton]
  intro i j hij
  refine h i j ?_
  by_contra hcon
  push_neg at hcon
  exact hij (by rw [hcon.1, hcon.2]; exact Finset.mem_singleton_self _)

theorem mean_single_cell (glcm : Glcm) (a b : GrayLevel) (h1 : glcm.cell a b = 1)
    (h0 : ∀ i j, (i ≠ a ∨ j ≠ b) → glcm.cell i j = 0) :
    glcmMean glcm = (a.val : ℚ) := by
  rw [glcmMean_eq, grid_sum_single a b, h1, mul_one]
  intro i j hij
  rw [h0 i j hij, mul_zero]

theorem variance_single_cell (glcm : Glcm) (a b : GrayLevel) (h1 : glcm.cell a b = 1)
    (h0 : ∀ i j, (i ≠ a ∨ j ≠ b) → glcm.cell i j = 0) :
    glcmVariance glcm = 0 := by
  rw [glcmVariance_eq, grid_sum_single a b, mean_single_cell glcm a b h1 h0, sub_self]
  · simp
  · intro i j hij
    rw [h0 i j hij, zero_mul]

/-! ## Claims on `calculateTextureFeatures` -/

/-- C7: `calculateTextureFeatures` returns the contrast and the energy of the
specification; its mean and its squared standard deviation are the row-index
sums of the specification; and when the standard deviation it computes is a
nonzero number, the correlation accumulated term by term is the single quotient
of the specification, whose divisor is the square of that standard deviation. -/
theorem calculateTextureFeatures_refines_spec (glcm : Glcm) :
    (calculateTextureFeatures glcm).contrast = Spec.contrast glcm ∧
    (calculateTextureFeatures glcm).energy = Spec.energy glcm ∧
    glcmMean glcm = Spec.mean glcm ∧
    glcmVariance glcm = Spec.variance glcm ∧
    (∀ v, sqrt (glcmVariance glcm) = Sqrt.root v → v ≠ 0 →
      v = Spec.variance glcm ∧
      (calculateTextureFeatures glcm).correlation = some (Spec.correlation glcm)) := by
  refine ⟨features_contrast glcm, features_energy glcm, mean_eq_spec glcm,
    variance_eq_spec glcm, fun v hstd hv => ?_⟩
  unfold sqrt at hstd
  split_ifs at hstd with hnonneg
  have hvar : glcmVariance glcm = v := Sqrt.root.inj hstd
  have hpos : 0 < glcmVariance glcm := by
    rw [hvar] at hnonneg ⊢
    exact lt_of_le_of_ne hnonneg (Ne.symm hv)
  exact ⟨by rw [← hvar, variance_eq_spec], features_correlation_of_pos glcm hpos⟩

/-- C8: for a matrix whose single nonzero cell `[a][b]` equals 1 the energy is 1,
and when the cell lies on the diagonal the contrast is 0. -/
theorem features_single_cell (glcm : Glcm) (a b : GrayLevel) (h1 : glcm.cell a b = 1)
    (h0 : ∀ i j, (i ≠ a ∨ j ≠ b) → glcm.cell i j = 0) :
    (calculateTextureFeatures glcm).energy = 1 ∧
    (a = b → (calculateTextureFeatures glcm).contrast = 0) := by
  constructor
  · rw [features_energy, Spec.energy, grid_sum_single a b, h1, one_pow]
    intro i j hij
    rw [h0 i j hij]
    simp
  · intro hab
    rw [features_contrast, Spec.contrast, grid_sum_single a b, hab, sub_self]
    · simp
    · intro i j hij
      rw [h0 i j hij, mul_zero]

/-- C9: when the standard deviation computed by `calculateTextureFeatures` is 0
the correlation is 0 and every pass through the loop body leaves the
accumulator as it is; the accumulator can change only when the standard
deviation is not 0. -/
theorem correlation_zero_of_std_zero (glcm : Glcm)
    (hstd : sqrt (glcmVariance glcm) = Sqrt.root 0) :
    (calculateTextureFeatures glcm).correlation = some 0 ∧
    (∀ c i j, addCorrelation (sqrt (glcmVariance glcm)) (glcmMean glcm) glcm c i j = c) ∧
    (∀ v mean c i j, addCorrelation (Sqrt.root v) mean glcm c i j ≠ c → v ≠ 0) := by
  have hv : glcmVariance glcm = 0 := by
    unfold sqrt at hstd
    split_ifs at hstd
    exact Sqrt.root.inj hstd
  refine ⟨features_correlation_of_zero glcm hv, ?_, ?_⟩
  · intro c i j
    rw [hstd]
    unfold addCorrelation
    simp
  · intro v mean c i j hne hv0
    apply hne
    unfold addCorrelation
    simp [hv0]

/-- C10: on the all-zero matrix `calculateTextureFeatures` returns contrast 0,
energy 0 and correlation 0. -/
theorem features_zero_matrix :
    calculateTextureFeatures ⟨fun _ _ => 0⟩
      = { contrast := 0, correlation := some 0, energy := 0 } := by
  have hvar : glcmVariance ⟨fun _ _ => 0⟩ = 0 := by
    rw [glcmVariance_eq]
    simp
  have hc := features_contrast ⟨fun _ _ => 0⟩
  have he := features_energy ⟨fun _ _ => 0⟩
  have hr := features_correlation_of_zero ⟨fun _ _ => 0⟩ hvar
  rw [Spec.contrast] at hc
  rw [Spec.energy] at he
  simp only [mul_zero, Finset.sum_const_zero, ne_eq, OfNat.ofNat_ne_zero, not_false_eq_true,
    zero_pow] at hc he
  generalize calculateTextureFeatures ⟨fun _ _ => 0⟩ = t at hc he hr
  cases t
  simp only at hc he hr
  rw [hc, he, hr]

/-! ## The round-trip scenario -/

theorem scenarioMatrix_support (f : GrayLevel → GrayLevel → ℚ)
    (h : ∀ i j, scenarioMatrix.cell i j = 0 → f i j = 0) :
    (∑ i : GrayLevel, ∑ j : GrayLevel, f i j) = f 0 255 + f 255 0 := by
  rw [grid_sum_eq_sum_support {(0, 255), (255, 0)} f, Finset.sum_pair (by decide)]
  intro i j hij
  refine h i j ?_
  simp only [Finset.mem_insert, Finset.mem_singleton, Prod.mk.injEq, not_or] at hij
  unfold scenarioMatrix
  simp only []
  rw [if_neg]
  rintro (h1 | h1)
  · exact hij.1 h1
  · exact hij.2 h1

theorem scenarioMatrix_contrast : (calculateTextureFeatures scenarioMatrix).contrast = 65025 := by
  have h255 : (((255 : GrayLevel) : ℕ) : ℚ) = 255 := by
    have h : ((255 : GrayLevel) : ℕ) = 255 := rfl
    rw [h]
    norm_num
  rw [features_contrast, Spec.contrast, scenarioMatrix_support]
  · simp [scenarioMatrix, h255]
    norm_num
  · intro i j h
    rw [h, mul_zero]

theorem scenarioMatrix_energy : (calculateTextureFeatures scenarioMatrix).energy = 1 / 2 := by
  rw [features_energy, Spec.energy, scenarioMatrix_support]
  · simp [scenarioMatrix]
    norm_num
  · intro i j h
    rw [h]
    simp

theorem scenarioMatrix_variance : Spec.variance scenarioMatrix = 65025 / 4 := by
  have h255 : (((255 : GrayLevel) : ℕ) : ℚ) = 255 := by
    have h : ((255 : GrayLevel) : ℕ) = 255 := rfl
    rw [h]
    norm_num
  have hmean : Spec.mean scenarioMatrix = 255 / 2 := by
    rw [Spec.mean, scenarioMatrix_support]
    · simp [scenarioMatrix, h255]
      norm_num
    · intro i j h
      rw [h, mul_zero]
  rw [Spec.variance, scenarioMatrix_support, hmean]
  · simp [scenarioMatrix, h255]
    norm_num
  · intro i j h
    rw [h, zero_mul]

theorem uniformMatrix_diag (v : GrayLevel) : (uniformMatrix v).cell v v = 1 := by
  simp [uniformMatrix]

theorem uniformMatrix_off (v i j : GrayLevel) (h : i ≠ v ∨ j ≠ v) :
    (uniformMatrix v).cell i j = 0 := by
  unfold uniformMatrix
  simp only []
  rw [if_neg]
  rintro ⟨h1, h2⟩
  rcases h with h | h
  · exact h h1
  · exact h h2

/-- The matrix `calculateGLCM` returns for the gray buffer of the scenario. -/
theorem scenario_glcm :
    calculateGLCM [0, 255, 255, 0] 2 2 1 0 = some (normalize ⟨fun a b =>
      ((Spec.pairPositions [0, 255, 255, 0] 2 2 1 0 a b).card : ℚ)⟩) ∧
    ∀ a b, (normalize ⟨fun a b =>
      ((Spec.pairPositions [0, 255, 255, 0] 2 2 1 0 a b).card : ℚ)⟩).cell a b
        = scenarioMatrix.cell a b := by
  have hcalc := calculateGLCM_eq_normalize [0, 255, 255, 0] 2 2 1 0 (fun _ => by decide)
  rw [direction_zero] at hcalc
  refine ⟨hcalc, ?_⟩
  intro a b
  have hs := glcmSum_counts [0, 255, 255, 0] 2 2 1 0 (fun _ => by decide)
  have hv : (Spec.validPositions 2 2 1 0).card = 2 := by decide
  rw [hv] at hs
  rw [normalize_cell, hs, if_pos (by norm_num)]
  simp only []
  have hset : Spec.validPositions 2 2 1 0 = {(0, 0), (0, 1)} := by decide
  unfold scenarioMatrix
  simp only []
  by_cases h1 : a = 0 ∧ b = 255
  · obtain ⟨rfl, rfl⟩ := h1
    have hc : (Spec.pairPositions [0, 255, 255, 0] 2 2 1 0 0 255).card = 1 := by decide
    rw [hc, if_pos (Or.inl ⟨rfl, rfl⟩)]
    norm_num
  · by_cases h2 : a = 255 ∧ b = 0
    · obtain ⟨rfl, rfl⟩ := h2
      have hc : (Spec.pairPositions [0, 255, 255, 0] 2 2 1 0 255 0).card = 1 := by decide
      rw [hc, if_pos (Or.inr ⟨rfl, rfl⟩)]
      norm_num
    · have hc : (Spec.pairPositions [0, 255, 255, 0] 2 2 1 0 a b).card = 0 := by
        rw [Finset.card_eq_zero]
        unfold Spec.pairPositions
        rw [hset, Finset.filter_eq_empty_iff]
        intro p hp
        simp only [Finset.mem_insert, Finset.mem_singleton] at hp
        rcases hp with rfl | rfl
        · rintro ⟨g1, g2⟩
          have e1 : Spec.gray [0, 255, 255, 0] 2 ((0 : Nat) : Int) ((0 : Nat) : Int)
            = some 0 := by decide
          have e2 : Spec.gray [0, 255, 255, 0] 2 (((0 : Nat) : Int) + 1)
            (((0 : Nat) : Int) + 0) = some 255 := by decide
          rw [e1] at g1
          rw [e2] at g2
          exact h1 ⟨(Option.some.inj g1).symm, (Option.some.inj g2).symm⟩
        · rintro ⟨g1, g2⟩
          have e1 : Spec.gray [0, 255, 255, 0] 2 ((0 : Nat) : Int) ((1 : Nat) : Int)
            = some 255 := by decide
          have e2 : Spec.gray [0, 255, 255, 0] 2 (((0 : Nat) : Int) + 1)
            (((1 : Nat) : Int) + 0) = some 0 := by decide
          rw [e1] at g1
          rw [e2] at g2
          exact h2 ⟨(Option.some.inj g1).symm, (Option.some.inj g2).symm⟩
      rw [hc, if_neg (by rintro (h | h); exact h1 h; exact h2 h)]
      norm_num

/-- C6: the round-trip scenario.  The `2 × 2` image
`[(0,0,0), (255,255,255), (255,255,255), (0,0,0)]` is converted to the gray
buffer `[0, 255, 255, 0]`; `calculateGLCM` with distance 1 and angle 0 returns
the matrix with `[0][255] = [255][0] = 1/2` and every other entry 0; and
`calculateTextureFeatures` returns contrast 65025 and energy 1/2 on it. -/
theorem round_trip_scenario :
    rgbToGrayscale scenarioPixels 2 2 = some [0, 255, 255, 0] ∧
    ∃ m, calculateGLCM [0, 255, 255, 0] 2 2 1 0 = some m ∧
      m.cell 0 255 = 1 / 2 ∧ m.cell 255 0 = 1 / 2 ∧
      (∀ i j, ¬ (i = 0 ∧ j = 255) → ¬ (i = 255 ∧ j = 0) → m.cell i j = 0) ∧
      (calculateTextureFeatures m).contrast = 65025 ∧
      (calculateTextureFeatures m).energy = 1 / 2 := by
  refine ⟨by decide!, _, scenario_glcm.1, ?_⟩
  have hm : normalize ⟨fun a b =>
      ((Spec.pairPositions [0, 255, 255, 0] 2 2 1 0 a b).card : ℚ)⟩ = scenarioMatrix := by
    ext a b
    exact scenario_glcm.2 a b
  rw [hm]
  refine ⟨by simp [scenarioMatrix], by simp [scenarioMatrix], ?_,
    scenarioMatrix_contrast, scenarioMatrix_energy⟩
  intro i j h1 h2
  unfold scenarioMatrix
  simp only []
  rw [if_neg (by rintro (h | h); exact h1 h; exact h2 h)]

theorem calculateTextureFeatures_refines_spec_witness :
    sqrt (glcmVariance scenarioMatrix) = Sqrt.root (65025 / 4) ∧
    (65025 / 4 : ℚ) = Spec.variance scenarioMatrix ∧
    (calculateTextureFeatures scenarioMatrix).correlation
      = some (Spec.correlation scenarioMatrix) :=
  have hstd : sqrt (glcmVariance scenarioMatrix) = Sqrt.root (65025 / 4) := by
    rw [variance_eq_spec, scenarioMatrix_variance]
    unfold sqrt
    rw [if_pos (by norm_num)]
  ⟨hstd, (calculateTextureFeatures_refines_spec scenarioMatrix).2.2.2.2 (65025 / 4) hstd
    (by norm_num)⟩

theorem features_single_cell_witness :
    (calculateTextureFeatures (uniformMatrix 7)).energy = 1 ∧
    (calculateTextureFeatures (uniformMatrix 7)).contrast = 0 :=
  have h := features_single_cell (uniformMatrix 7) 7 7 (uniformMatrix_diag 7)
    (fun i j hij => uniformMatrix_off 7 i j hij)
  ⟨h.1, h.2 rfl⟩

theorem correlation_zero_of_std_zero_witness :
    sqrt (glcmVariance (uniformMatrix 7)) = Sqrt.root 0 ∧
    (calculateTextureFeatures (uniformMatrix 7)).correlation = some 0 :=
  have hstd : sqrt (glcmVariance (uniformMatrix 7)) = Sqrt.root 0 := by
    rw [variance_single_cell (uniformMatrix 7) 7 7 (uniformMatrix_diag 7)
      (fun i j hij => uniformMatrix_off 7 i j hij)]
    simp [sqrt]
  ⟨hstd, (correlation_zero_of_std_zero (uniformMatrix 7) hstd).1⟩

/-! ## `rgbToGrayscale` entry by entry -/

theorem hugePixels_length : (hugePixels.length : Int) = 46341 * 46341 := by
  unfold hugePixels
  rw [List.length_replicate]
  norm_num

theorem channel_sum_le (f : RGBPixel → GrayLevel) (pixels : List RGBPixel) :
    (pixels.map (fun p => (f p).val)).sum ≤ 255 * pixels.length := by
  induction pixels with
  | nil => simp
  | cons p ps ih =>
    have h : (f p).val < 256 := (f p).isLt
    simp only [List.map_cons, List.sum_cons, List.length_cons]
    omega

theorem sum_take_succ (f : RGBPixel → Nat) (pixels : List RGBPixel) (n : Nat)
    (h : n < pixels.length) :
    ((pixels.take (n + 1)).map f).sum = ((pixels.take n).map f).sum + f pixels[n] := by
  rw [List.take_succ, List.getElem?_eq_getElem h]
  simp only [Option.toList, List.map_append, List.sum_append, List.map_cons, List.map_nil,
    List.sum_cons, List.sum_nil, add_zero]

/-- After `n` passes the accumulators hold the channel sums of the first `n`
pixels. -/
theorem foldlM_addPixel (pixels : List RGBPixel) (n : Nat) (hn : n ≤ pixels.length)
    (t : ColorTotals) :
    (List.range n).foldlM (addPixel pixels) t
      = some { totalRed := t.totalRed + (Spec.sumRed (pixels.take n) : Int)
               totalGreen := t.totalGreen + (Spec.sumGreen (pixels.take n) : Int)
               totalBlue := t.totalBlue + (Spec.sumBlue (pixels.take n) : Int) } := by
  induction n with
  | zero => simp [Spec.sumRed, Spec.sumGreen, Spec.sumBlue, pure]
  | succ n ih =>
    have hlt : n < pixels.length := hn
    rw [List.range_succ, List.foldlM_append, ih (Nat.le_of_lt hlt)]
    simp only [Option.bind_eq_bind, Option.some_bind, List.foldlM_cons, List.foldlM_nil]
    unfold addPixel
    rw [List.getElem?_eq_getElem hlt]
    unfold Spec.sumRed Spec.sumGreen Spec.sumBlue
    rw [sum_take_succ _ pixels n hlt, sum_take_succ _ pixels n hlt,
      sum_take_succ _ pixels n hlt]
    simp only [Option.map_some', pure, Nat.cast_add, add_assoc]
    rfl

theorem calculateMeanColor_eq (pixels : List RGBPixel) (width height : Int)
    (hlen : (pixels.length : Int) = width * height) (hpos : 1 ≤ width * height)
    (hmax : width * height ≤ INT_MAX) :
    calculateMeanColor pixels width height
      = some { meanRed := some ((Spec.sumRed pixels : ℚ) / ((width * height : Int) : ℚ))
               meanGreen := some ((Spec.sumGreen pixels : ℚ) / ((width * height : Int) : ℚ))
               meanBlue :=
                 some ((Spec.sumBlue pixels : ℚ) / ((width * height : Int) : ℚ)) } := by
  unfold calculateMeanColor
  have hn : (width * height).toNat = pixels.length := by
    rw [← hlen]
    exact Int.toNat_natCast _
  have hne : width * height ≠ 0 := by omega
  simp only []
  rw [wrap32_of_range _ (by omega) hmax, hn, foldlM_addPixel pixels _ le_rfl,
    List.take_length, Option.map_some']
  simp only [meanOf, if_neg hne, zero_add, Int.cast_natCast]

/-- C13, amended: for a pixel buffer with `1 ≤ width * height ≤ INT_MAX`,
`calculateMeanColor` returns for each channel the sum of the channel over all pixels divided by
`width * height`; for a `1 × 1` image with pixel `(r, g, b)` the means are
`r`, `g` and `b`, and the pixel `(10, 20, 30)` gives 10, 20 and 30. -/
theorem calculateMeanColor_means (pixels : List RGBPixel) (width height : Int)
    (hlen : (pixels.length : Int) = width * height) (hpos : 1 ≤ width * height)
    (hmax : width * height ≤ INT_MAX) :
    calculateMeanColor pixels width height
      = some { meanRed := some ((Spec.sumRed pixels : ℚ) / ((width * height : Int) : ℚ))
               meanGreen := some ((Spec.sumGreen pixels : ℚ) / ((width * height : Int) : ℚ))
               meanBlue := some ((Spec.sumBlue pixels : ℚ) / ((width * height : Int) : ℚ)) } ∧
    (∀ p : RGBPixel, calculateMeanColor [p] 1 1
      = some { meanRed := some (p.r.val : ℚ)
               meanGreen := some (p.g.val : ℚ)
               meanBlue := some (p.b.val : ℚ) }) ∧
    calculateMeanColor [⟨10, 20, 30⟩] 1 1
      = some { meanRed := some 10, meanGreen := some 20, meanBlue := some 30 } := by
  have hone : ∀ p : RGBPixel, calculateMeanColor [p] 1 1
      = some { meanRed := some (p.r.val : ℚ)
               meanGreen := some (p.g.val : ℚ)
               meanBlue := some (p.b.val : ℚ) } := by
    intro p
    rw [calculateMeanColor_eq [p] 1 1 (by simp) (by decide) (by decide)]
    simp [Spec.sumRed, Spec.sumGreen, Spec.sumBlue]
  refine ⟨calculateMeanColor_eq pixels width height hlen hpos hmax, hone, ?_⟩
  have e10 : (((10 : GrayLevel) : Nat) : ℚ) = 10 := by
    have h : ((10 : GrayLevel) : Nat) = 10 := rfl
    rw [h]
    norm_num
  have e20 : (((20 : GrayLevel) : Nat) : ℚ) = 20 := by
    have h : ((20 : GrayLevel) : Nat) = 20 := rfl
    rw [h]
    norm_num
  have e30 : (((30 : GrayLevel) : Nat) : ℚ) = 30 := by
    have h : ((30 : GrayLevel) : Nat) = 30 := rfl
    rw [h]
    norm_num
  rw [hone]
  simp only [e10, e20, e30]

theorem calculateMeanColor_means_witness :
    calculateMeanColor [⟨10, 20, 30⟩, ⟨30, 20, 10⟩] 2 1
      = some { meanRed := some (((Spec.sumRed [⟨10, 20, 30⟩, ⟨30, 20, 10⟩] : Nat) : ℚ)
                 / (((2 : Int) * 1 : Int) : ℚ))
               meanGreen := some (((Spec.sumGreen [⟨10, 20, 30⟩, ⟨30, 20, 10⟩] : Nat) : ℚ)
                 / (((2 : Int) * 1 : Int) : ℚ))
               meanBlue := some (((Spec.sumBlue [⟨10, 20, 30⟩, ⟨30, 20, 10⟩] : Nat) : ℚ)
                 / (((2 : Int) * 1 : Int) : ℚ)) } :=
  (calculateMeanColor_means [⟨10, 20, 30⟩, ⟨30, 20, 10⟩] 2 1 (by decide) (by decide)
    (by decide)).1

/-- C13 as stated fails above `INT_MAX` pixels: for the buffer of
`46341 * 46341` pixels `(10, 20, 30)` the `int` pixel count is negative, the
loop never runs and the three means are 0 divided by that count, not 10, 20
and 30. -/
theorem calculateMeanColor_means_counterexample :
    (hugePixels.length : Int) = 46341 * 46341 ∧
    (1 : Int) ≤ 46341 * 46341 ∧
    wrap32 (46341 * 46341) = -2147479015 ∧
    calculateMeanColor hugePixels 46341 46341
      = some { meanRed := some 0, meanGreen := some 0, meanBlue := some 0 } ∧
    (Spec.sumRed hugePixels : ℚ) / (((46341 : Int) * 46341 : Int) : ℚ) = 10 := by
  have hw : wrap32 (46341 * 46341) = -2147479015 := by decide
  refine ⟨hugePixels_length, by decide, hw, ?_, ?_⟩
  · unfold calculateMeanColor
    simp only []
    rw [hw]
    have hr : List.range (Int.toNat (-2147479015)) = [] := rfl
    rw [hr]
    simp [meanOf, pure]
  · unfold Spec.sumRed hugePixels
    rw [List.map_replicate, List.sum_replicate]
    have h10 : ((10 : GrayLevel) : Nat) = 10 := rfl
    simp only [h10, smul_eq_mul]
    norm_num

/-! ## Every read of `calculateGLCM` is in range -/

/-- C14, amended: for a gray buffer of length `width * height ≤ INT_MAX`, every
distance and every angle, at every position of the scan that passes the bounds
test the two `int` indices `y * width + x` and `newY * width + newX` do not
overflow and lie in `[0, width * height)`, both reads succeed, the two values
read are below 256, and the step increments the matrix; a position that fails
the test reads nothing; so `calculateGLCM` never takes the out-of-range branch.
The signs of `width` and `height` follow from the length of the buffer wherever
a position exists. -/
theorem calculateGLCM_reads_in_range (grayImage : List GrayLevel)
    (width height distance angle : Int)
    (hlen : (grayImage.length : Int) = width * height)
    (hmax : width * height ≤ INT_MAX) :
    (∀ y x : Nat, (y : Int) < height → (x : Int) < width →
      inBounds width height ((x : Int) + (direction distance angle).1)
        ((y : Int) + (direction distance angle).2) = true →
      (0 ≤ wrap32 ((y : Int) * width + (x : Int)) ∧
        wrap32 ((y : Int) * width + (x : Int)) < width * height) ∧
      (0 ≤ wrap32 (((y : Int) + (direction distance angle).2) * width
            + ((x : Int) + (direction distance angle).1)) ∧
        wrap32 (((y : Int) + (direction distance angle).2) * width
            + ((x : Int) + (direction distance angle).1)) < width * height) ∧
      ∃ currentValue newValue : GrayLevel,
        readGray grayImage (wrap32 ((y : Int) * width + (x : Int))) = some currentValue ∧
        readGray grayImage (wrap32 (((y : Int) + (direction distance angle).2) * width
            + ((x : Int) + (direction distance angle).1))) = some newValue ∧
        currentValue.val < GRAY_LEVELS ∧ newValue.val < GRAY_LEVELS ∧
        ∀ glcm, visit grayImage width height (direction distance angle).1
            (direction distance angle).2 y x glcm
          = some (increment glcm currentValue newValue)) ∧
    (∀ (y x : Nat) (glcm : Glcm),
      inBounds width height ((x : Int) + (direction distance angle).1)
        ((y : Int) + (direction distance angle).2) = false →
      visit grayImage width height (direction distance angle).1
          (direction distance angle).2 y x glcm = some glcm) ∧
    ∃ m, calculateGLCM grayImage width height distance angle = some m := by
  refine ⟨?_, ?_, ?_⟩
  · intro y x hy hx hb
    obtain ⟨h1, h2, h3, h4⟩ := (inBounds_iff _ _ _ _).mp hb
    have hcur := index_in_range width height x y (Int.natCast_nonneg x) hx
      (Int.natCast_nonneg y) hy
    have hnew := index_in_range width height _ _ h1 h2 h3 h4
    have e1 := wrap32_index width height x y hmax
      (Int.natCast_nonneg x) hx (Int.natCast_nonneg y) hy
    have e2 := wrap32_index width height _ _ hmax h1 h2 h3 h4
    obtain ⟨a0, ha0⟩ := readGray_isSome grayImage width height x y hlen
      (Int.natCast_nonneg x) hx (Int.natCast_nonneg y) hy
    obtain ⟨b0, hb0⟩ := readGray_isSome grayImage width height _ _ hlen h1 h2 h3 h4
    rw [e1, e2]
    refine ⟨hcur, hnew, a0, b0, ha0, hb0, a0.isLt, b0.isLt, ?_⟩
    intro glcm
    unfold visit
    simp only []
    rw [if_pos hb, e1, e2, ha0, hb0]
  · intro y x glcm hb
    unfold visit
    simp only []
    rw [hb]
    rfl
  · obtain ⟨m, hm, _⟩ :=
      calculateGLCM_cell grayImage width height distance angle (fun _ => ⟨hlen, hmax⟩)
    exact ⟨m, hm⟩

theorem calculateGLCM_reads_in_range_witness :
    ∃ m, calculateGLCM [0, 255, 255, 0] 2 2 1 0 = some m :=
  (calculateGLCM_reads_in_range [0, 255, 255, 0] 2 2 1 0 (by decide) (by decide)).2.2

/-- C14 as stated fails above `INT_MAX` pixels: the buffer of `65536 * 32769`
pixels has the stated length and non-negative dimensions, position
`(0, 32768)` passes the bounds test for distance 1 and angle 0, and its `int`
index is `-2147483648`, outside `[0, width * height)`; the read is out of
range. -/
theorem calculateGLCM_reads_in_range_counterexample :
    (hugeGray.length : Int) = 65536 * 32769 ∧ (0 : Int) ≤ 65536 ∧ (0 : Int) ≤ 32769 ∧
    inBounds 65536 32769 (((0 : Nat) : Int) + (direction 1 0).1)
      (((32768 : Nat) : Int) + (direction 1 0).2) = true ∧
    wrap32 (((32768 : Nat) : Int) * 65536 + ((0 : Nat) : Int)) = -2147483648 ∧
    readGray hugeGray (wrap32 (((32768 : Nat) : Int) * 65536 + ((0 : Nat) : Int))) = none ∧
    calculateGLCM hugeGray 65536 32769 1 0 = none := by
  have hw : wrap32 (((32768 : Nat) : Int) * 65536 + ((0 : Nat) : Int)) = -2147483648 := by
    decide
  refine ⟨hugeGray_length, by decide, by decide, by decide, hw, ?_,
    calculateGLCM_overflow hugeGray 1 0 (by decide)⟩
  rw [hw]
  rfl

/-! ## A correlation above one -/

/-- The matrix of a `2 × 2` image with rows `[p, q]` and `[r, s]` for distance 1
and angle 0: the two horizontal pairs, each with weight one half. -/
theorem calculateGLCM_two_by_two (p q r s : GrayLevel) :
    ∃ m, calculateGLCM [p, q, r, s] 2 2 1 0 = some m ∧
      ∀ a b, m.cell a b
        = ((if p = a ∧ q = b then 1 else 0) + (if r = a ∧ s = b then 1 else 0)) / 2 := by
  obtain ⟨m, hm, hcell⟩ :=
    calculateGLCM_cell [p, q, r, s] 2 2 1 0 (fun _ => ⟨by simp, by decide⟩)
  refine ⟨m, hm, fun a b => ?_⟩
  rw [hcell, direction_zero]
  simp only []
  have hv : (Spec.validPositions 2 2 1 0).card = 2 := by decide
  rw [hv, ← sum_hit_eq_card]
  have hr : Finset.range (Int.toNat 2) = Finset.range 2 := rfl
  rw [hr]
  simp only [Finset.sum_range_succ, Finset.sum_range_zero, zero_add]
  have h00 : hit [p, q, r, s] 2 2 1 0 a b 0 0 = if p = a ∧ q = b then 1 else 0 := by
    simp [hit, inBounds, readGray]
  have h01 : hit [p, q, r, s] 2 2 1 0 a b 0 1 = 0 := by
    simp [hit, inBounds]
  have h10 : hit [p, q, r, s] 2 2 1 0 a b 1 0 = if r = a ∧ s = b then 1 else 0 := by
    simp [hit, inBounds, readGray]
  have h11 : hit [p, q, r, s] 2 2 1 0 a b 1 1 = 0 := by
    simp [hit, inBounds]
  rw [h00, h01, h10, h11]
  norm_num

theorem skewMatrix_support (f : GrayLevel → GrayLevel → ℚ)
    (h : ∀ i j, skewMatrix.cell i j = 0 → f i j = 0) :
    (∑ i : GrayLevel, ∑ j : GrayLevel, f i j) = f 0 0 + f 1 255 := by
  rw [grid_sum_eq_sum_support {(0, 0), (1, 255)} f, Finset.sum_pair (by decide)]
  intro i j hij
  refine h i j ?_
  simp only [Finset.mem_insert, Finset.mem_singleton, Prod.mk.injEq, not_or] at hij
  unfold skewMatrix
  simp only []
  rw [if_neg]
  rintro (h1 | h1)
  · exact hij.1 h1
  · exact hij.2 h1

theorem skewMatrix_mean : glcmMean skewMatrix = 1 / 2 := by
  rw [glcmMean_eq, skewMatrix_support]
  · simp [skewMatrix]
  · intro i j h
    rw [h, mul_zero]

theorem skewMatrix_variance : glcmVariance skewMatrix = 1 / 4 := by
  rw [glcmVariance_eq, skewMatrix_support, skewMatrix_mean]
  · simp [skewMatrix]
    norm_num
  · intro i j h
    rw [h, zero_mul]

theorem skewMatrix_correlation :
    (calculateTextureFeatures skewMatrix).correlation = some 255 := by
  have h255 : (((255 : GrayLevel) : ℕ) : ℚ) = 255 := by
    have h : ((255 : GrayLevel) : ℕ) = 255 := rfl
    rw [h]
    norm_num
  rw [features_correlation_of_pos skewMatrix (by rw [skewMatrix_variance]; norm_num),
    Spec.correlation, ← variance_eq_spec, ← mean_eq_spec, skewMatrix_variance, skewMatrix_mean,
    skewMatrix_support]
  · simp [skewMatrix, h255]
    norm_num
  · intro i j h
    rw [h, mul_zero]

/-- C15: the correlation of a matrix produced by `calculateGLCM` can exceed 1.
The `2 × 2` gray buffer `[0, 0, 1, 255]` with distance 1 and angle 0 gives the
matrix with `[0][0] = [1][255] = 1/2`, mean `1/2`, squared standard deviation
`1/4` and correlation 255. -/
theorem correlation_exceeds_one :
    ∃ m, calculateGLCM [0, 0, 1, 255] 2 2 1 0 = some m ∧
      m.cell 0 0 = 1 / 2 ∧ m.cell 1 255 = 1 / 2 ∧
      glcmMean m = 1 / 2 ∧ glcmVariance m = 1 / 4 ∧
      sqrt (glcmVariance m) = Sqrt.root (1 / 4) ∧
      (calculateTextureFeatures m).correlation = some 255 ∧ (1 : ℚ) < 255 := by
  obtain ⟨m, hm, hcell⟩ := calculateGLCM_two_by_two 0 0 1 255
  have hskew : m = skewMatrix := by
    ext a b
    rw [hcell]
    unfold skewMatrix
    simp only []
    by_cases h1 : (0 : GrayLevel) = a ∧ (0 : GrayLevel) = b
    · obtain ⟨rfl, rfl⟩ := h1
      simp
    · by_cases h2 : (1 : GrayLevel) = a ∧ (255 : GrayLevel) = b
      · obtain ⟨rfl, rfl⟩ := h2
        simp
      · have h3 : ¬ ((a = 0 ∧ b = 0) ∨ (a = 1 ∧ b = 255)) := by
          rintro (h | h)
          · exact h1 ⟨h.1.symm, h.2.symm⟩
          · exact h2 ⟨h.1.symm, h.2.symm⟩
        rw [if_neg h1, if_neg h2, if_neg h3]
        norm_num
  refine ⟨m, hm, ?_⟩
  rw [hskew]
  refine ⟨by simp [skewMatrix], by simp [skewMatrix], skewMatrix_mean, skewMatrix_variance,
    ?_, skewMatrix_correlation, by norm_num⟩
  rw [skewMatrix_variance]
  unfold sqrt
  rw [if_pos (by norm_num)]

/-! ## Angles other than 0 and 90 -/

theorem direction_other (distance angle : Int) (h0 : angle ≠ 0) (h90 : angle ≠ 90) :
    direction distance angle = (0, 0) := by
  unfold direction
  rw [if_neg h0, if_neg h90]

theorem sum_range_mul (f : Nat → ℚ) (W H : Nat) :
    (∑ i ∈ Finset.range (H * W), f i)
      = ∑ y ∈ Finset.range H, ∑ x ∈ Finset.range W, f (y * W + x) := by
  induction H with
  | zero => simp
  | succ H ih => rw [Nat.succ_mul, Finset.sum_range_add, ih, Finset.sum_range_succ]

/-- The number of entries equal to `v`, as a sum over the indices. -/
theorem count_eq_sum (l : List GrayLevel) (v : GrayLevel) :
    (l.count v : ℚ) = ∑ i ∈ Finset.range l.length, if l[i]? = some v then 1 else 0 := by
  induction l with
  | nil => simp
  | cons b l ih =>
    rw [List.count_cons, List.length_cons, Finset.sum_range_succ', Nat.cast_add, ih]
    simp only [List.getElem?_cons_succ, List.getElem?_cons_zero, Option.some.injEq]
    congr 1
    by_cases hb : b = v
    · simp [hb]
    · simp [hb]

/-- With the zero offset a position contributes to the diagonal cell of its own
gray value only. -/
theorem hit_zero_offset (grayImage : List GrayLevel) (W H : Nat) (a b : GrayLevel)
    (y x : Nat) (hy : y < H) (hx : x < W) :
    hit grayImage (W : Int) (H : Int) 0 0 a b y x
      = if a = b then (if grayImage[y * W + x]? = some a then 1 else 0) else 0 := by
  have hb : inBounds (W : Int) (H : Int) ((x : Int) + 0) ((y : Int) + 0) = true := by
    rw [inBounds_iff]
    omega
  have hidx : ((y : Int) * (W : Int) + (x : Int)) = ((y * W + x : Nat) : Int) := by
    push_cast
    rfl
  have hread : readGray grayImage ((y : Int) * (W : Int) + (x : Int))
      = grayImage[y * W + x]? := by
    unfold readGray
    rw [hidx, if_pos (Int.natCast_nonneg _), Int.toNat_natCast]
  unfold hit
  simp only [add_zero, hread]
  rw [add_zero, add_zero] at hb
  by_cases hab : a = b
  · subst hab
    simp [hb]
  · rw [if_neg hab, if_neg]
    rintro ⟨_, h1, h2⟩
    rw [h1] at h2
    exact hab (Option.some.inj h2)

theorem validPositions_zero_offset (W H : Nat) :
    (Spec.validPositions (W : Int) (H : Int) 0 0).card = W * H := by
  have h : Spec.validPositions (W : Int) (H : Int) 0 0
      = Finset.range W ×ˢ Finset.range H := by
    ext ⟨x, y⟩
    rw [mem_validPositions]
    simp only [Spec.inImage, Finset.mem_product, Finset.mem_range]
    omega
  rw [h, Finset.card_product, Finset.card_range, Finset.card_range]

/-- C12, amended: for an angle other than 0 and 90, every distance and a gray
buffer of length `width * height ≤ INT_MAX` with `width ≥ 1` and `height ≥ 1`,
`calculateGLCM` uses the offset `(0, 0)`: every off-diagonal entry is 0, the
diagonal entry `[v][v]` is the number of pixels of gray value `v` divided by
`width * height`, and the result does not depend on the distance. -/
theorem calculateGLCM_other_angle (grayImage : List GrayLevel)
    (width height distance angle : Int)
    (hlen : (grayImage.length : Int) = width * height)
    (hmax : width * height ≤ INT_MAX)
    (hw : 1 ≤ width) (hh : 1 ≤ height) (h0 : angle ≠ 0) (h90 : angle ≠ 90) :
    direction distance angle = (0, 0) ∧
    ∃ m, calculateGLCM grayImage width height distance angle = some m ∧
      (∀ a b, a ≠ b → m.cell a b = 0) ∧
      (∀ v, m.cell v v = (grayImage.count v : ℚ) / ((width * height : Int) : ℚ)) ∧
      ∀ other : Int, calculateGLCM grayImage width height other angle = some m := by
  have hdir := direction_other distance angle h0 h90
  refine ⟨hdir, ?_⟩
  obtain ⟨m, hm, hcell⟩ :=
    calculateGLCM_cell grayImage width height distance angle (fun _ => ⟨hlen, hmax⟩)
  rw [hdir] at hcell
  simp only [] at hcell
  obtain ⟨W, rfl⟩ := Int.eq_ofNat_of_zero_le (show 0 ≤ width by omega)
  obtain ⟨H, rfl⟩ := Int.eq_ofNat_of_zero_le (show 0 ≤ height by omega)
  have hlenN : grayImage.length = H * W := by
    have : (grayImage.length : Int) = ((H * W : Nat) : Int) := by
      rw [hlen]
      push_cast
      ring
    exact_mod_cast this
  have hpair : ∀ a b, ((Spec.pairPositions grayImage (W : Int) (H : Int) 0 0 a b).card : ℚ)
      = if a = b then (grayImage.count a : ℚ) else 0 := by
    intro a b
    rw [← sum_hit_eq_card, Int.toNat_natCast, Int.toNat_natCast]
    have hrow : ∀ y ∈ Finset.range H, (∑ x ∈ Finset.range W,
        hit grayImage (W : Int) (H : Int) 0 0 a b y x)
        = ∑ x ∈ Finset.range W,
            if a = b then (if grayImage[y * W + x]? = some a then (1 : ℚ) else 0) else 0 := by
      intro y hy
      refine Finset.sum_congr rfl (fun x hx => ?_)
      exact hit_zero_offset grayImage W H a b y x (Finset.mem_range.mp hy)
        (Finset.mem_range.mp hx)
    rw [Finset.sum_congr rfl hrow]
    by_cases hab : a = b
    · simp only [if_pos hab]
      rw [count_eq_sum, hlenN, sum_range_mul]
    · simp only [if_neg hab]
      simp
  refine ⟨m, hm, ?_, ?_, ?_⟩
  · intro a b hab
    rw [hcell, hpair, if_neg hab, zero_div]
  · intro v
    rw [hcell, hpair, if_pos rfl, validPositions_zero_offset]
    push_cast
    ring
  · intro other
    rw [← hm]
    unfold calculateGLCM
    rw [hdir, direction_other other angle h0 h90]

theorem calculateGLCM_other_angle_witness :
    direction 3 45 = (0, 0) ∧
    ∃ m, calculateGLCM [7, 9, 7] 3 1 3 45 = some m ∧
      (∀ a b, a ≠ b → m.cell a b = 0) ∧
      (∀ v, m.cell v v = (([7, 9, 7] : List GrayLevel).count v : ℚ)
        / (((3 : Int) * 1 : Int) : ℚ)) ∧
      ∀ other : Int, calculateGLCM [7, 9, 7] 3 1 other 45 = some m :=
  calculateGLCM_other_angle [7, 9, 7] 3 1 3 45 (by decide) (by decide) (by decide)
    (by decide) (by decide) (by decide)

/-- C12 as stated fails when `width` and `height` are both negative: the buffer
`[7]` has length `(-1) * (-1)` and one pixel of gray value 7, yet the scan
visits no position and cell `[7][7]` is 0, not `1 / 1`.  It also fails above
`INT_MAX` pixels: for the buffer of `65536 * 32769` pixels and angle 45
`calculateGLCM` returns no matrix. -/
theorem calculateGLCM_other_angle_counterexample :
    ((([7] : List GrayLevel).length : Int) = (-1) * (-1) ∧
      ∃ m, calculateGLCM [7] (-1) (-1) 1 45 = some m ∧ m.cell 7 7 = 0 ∧
        m.cell 7 7
          ≠ (([7] : List GrayLevel).count 7 : ℚ) / (((-1 : Int) * (-1) : Int) : ℚ)) ∧
    ((hugeGray.length : Int) = 65536 * 32769 ∧
      calculateGLCM hugeGray 65536 32769 1 45 = none) := by
  have hnone : (Spec.validPositions (-1) (-1) (direction 1 45).1 (direction 1 45).2).card
      = 0 := by
    rw [validPositions_card_eq_zero_iff]
    intro x y hx hy
    omega
  obtain ⟨m, hm, hz⟩ := calculateGLCM_zero_of_no_valid [7] (-1) (-1) 1 45 hnone
  refine ⟨⟨by decide, m, hm, hz 7 7, ?_⟩, hugeGray_length,
    calculateGLCM_overflow hugeGray 1 45 (by decide)⟩
  rw [hz]
  norm_num

/-! ## The vertical direction on the transposed image -/

theorem mem_pairPositions (grayImage : List GrayLevel) (width height dx dy : Int)
    (a b : GrayLevel) (x y : Nat) :
    (x, y) ∈ Spec.pairPositions grayImage width height dx dy a b
      ↔ ((x : Int) < width ∧ (y : Int) < height ∧
          Spec.inImage width height ((x : Int) + dx) ((y : Int) + dy)) ∧
        Spec.gray grayImage width x y = some a ∧
        Spec.gray grayImage width ((x : Int) + dx) ((y : Int) + dy) = some b := by
  unfold Spec.pairPositions
  rw [Finset.mem_filter, mem_validPositions]

/-- The pairs `(a, b)` of the vertical direction in an image are the pairs
`(b, a)` of the horizontal direction in its transpose. -/
theorem card_pairPositions_transpose (image transposed : List GrayLevel)
    (width height distance : Int)
    (htr : ∀ x y : Nat, (x : Int) < height → (y : Int) < width →
      Spec.gray transposed height x y = Spec.gray image width y x)
    (a b : GrayLevel) :
    (Spec.pairPositions image width height 0 (-distance) a b).card
      = (Spec.pairPositions transposed height width distance 0 b a).card := by
  refine Finset.card_nbij' (fun p => (((p.2 : Int) - distance).toNat, p.1))
    (fun q => (q.2, ((q.1 : Int) + distance).toNat)) ?_ ?_ ?_ ?_
  · rintro ⟨x, y⟩ hp
    rw [mem_pairPositions] at hp
    obtain ⟨⟨hx, hy, hin⟩, ga, gb⟩ := hp
    unfold Spec.inImage at hin
    have hu : ((((y : Int) - distance).toNat : Nat) : Int) = (y : Int) - distance :=
      Int.toNat_of_nonneg (by omega)
    show ((((y : Int) - distance).toNat : Nat), x) ∈ _
    rw [mem_pairPositions]
    have hu1 : ((((y : Int) - distance).toNat : Nat) : Int) < height := by omega
    have e1 : ((((y : Int) - distance).toNat : Nat) : Int) + distance = (y : Int) := by omega
    have e2 : (x : Int) + 0 = (x : Int) := add_zero _
    have e3 : (y : Int) + -distance = ((((y : Int) - distance).toNat : Nat) : Int) := by omega
    refine ⟨⟨hu1, hx, ?_⟩, ?_, ?_⟩
    · unfold Spec.inImage
      omega
    · rw [htr _ _ hu1 hx, ← e3, ← e2]
      exact gb
    · rw [e1, e2, htr y x hy hx]
      exact ga
  · rintro ⟨u, v⟩ hq
    rw [mem_pairPositions] at hq
    obtain ⟨⟨hu, hv, hin⟩, gb, ga⟩ := hq
    unfold Spec.inImage at hin
    have hy : ((((u : Int) + distance).toNat : Nat) : Int) = (u : Int) + distance :=
      Int.toNat_of_nonneg (by omega)
    show (v, (((u : Int) + distance).toNat : Nat)) ∈ _
    rw [mem_pairPositions]
    have hy1 : ((((u : Int) + distance).toNat : Nat) : Int) < height := by omega
    have e1 : ((((u : Int) + distance).toNat : Nat) : Int) + -distance = (u : Int) := by omega
    have e2 : (v : Int) + 0 = (v : Int) := add_zero _
    refine ⟨⟨hv, hy1, ?_⟩, ?_, ?_⟩
    · unfold Spec.inImage
      omega
    · rw [← htr _ _ hy1 hv, hy, ← e2]
      exact ga
    · rw [e1, e2, ← htr u v hu hv]
      exact gb
  · rintro ⟨x, y⟩ hp
    rw [mem_pairPositions] at hp
    obtain ⟨⟨_, _, hin⟩, _, _⟩ := hp
    unfold Spec.inImage at hin
    simp only [Prod.mk.injEq, true_and]
    omega
  · rintro ⟨u, v⟩ hq
    rw [mem_pairPositions] at hq
    obtain ⟨⟨_, _, hin⟩, _, _⟩ := hq
    unfold Spec.inImage at hin
    simp only [Prod.mk.injEq, and_true]
    omega

/-- C16, amended: for a gray image of size `width × height` with
`width * height ≤ INT_MAX` and its transpose (the `height × width` image with
`T(x, y) = I(y, x)`), the matrix `calculateGLCM`
returns for angle 90 on the image is the transpose of the matrix it returns for
angle 0 on the transposed image, for every distance; the vertical offset is
`(0, -distance)`. -/
theorem calculateGLCM_vertical_transpose (image transposed : List GrayLevel)
    (width height distance : Int)
    (hlen : (image.length : Int) = width * height)
    (hlenT : (transposed.length : Int) = height * width)
    (hmax : width * height ≤ INT_MAX)
    (htr : ∀ x y : Nat, (x : Int) < height → (y : Int) < width →
      Spec.gray transposed height x y = Spec.gray image width y x) :
    direction distance 90 = (0, -distance) ∧
    ∃ m90 m0, calculateGLCM image width height distance 90 = some m90 ∧
      calculateGLCM transposed height width distance 0 = some m0 ∧
      ∀ a b, m90.cell a b = m0.cell b a := by
  refine ⟨direction_ninety distance, ?_⟩
  have hmaxT : height * width ≤ INT_MAX := by
    rw [mul_comm]
    exact hmax
  obtain ⟨m90, h90, c90⟩ :=
    calculateGLCM_cell image width height distance 90 (fun _ => ⟨hlen, hmax⟩)
  obtain ⟨m0, h0, c0⟩ :=
    calculateGLCM_cell transposed height width distance 0 (fun _ => ⟨hlenT, hmaxT⟩)
  rw [direction_ninety] at c90
  rw [direction_zero] at c0
  simp only [] at c90 c0
  have hpair := card_pairPositions_transpose image transposed width height distance htr
  have hvalid : ((Spec.validPositions width height 0 (-distance)).card : ℚ)
      = ((Spec.validPositions height width distance 0).card : ℚ) := by
    rw [← sum_card_pairPositions image width height 0 (-distance) (fun _ => hlen),
      ← sum_card_pairPositions transposed height width distance 0 (fun _ => hlenT),
      Finset.sum_comm]
    refine Finset.sum_congr rfl (fun b _ => Finset.sum_congr rfl (fun a _ => ?_))
    rw [hpair a b]
  refine ⟨m90, m0, h90, h0, fun a b => ?_⟩
  rw [c90, c0, hvalid, hpair a b]

theorem calculateGLCM_vertical_transpose_witness :
    direction 1 90 = (0, -1) ∧
    ∃ m90 m0, calculateGLCM [1, 2, 3, 4, 5, 6] 3 2 1 90 = some m90 ∧
      calculateGLCM [1, 4, 2, 5, 3, 6] 2 3 1 0 = some m0 ∧
      ∀ a b, m90.cell a b = m0.cell b a :=
  calculateGLCM_vertical_transpose [1, 2, 3, 4, 5, 6] [1, 4, 2, 5, 3, 6] 3 2 1
    (by decide) (by decide) (by decide) (by
      intro x y hx hy
      have hx2 : x < 2 := by omega
      have hy3 : y < 3 := by omega
      interval_cases x <;> interval_cases y <;> decide)

/-- Every pixel of the uniform buffer of `65536 * 32769` pixels is 7. -/
theorem gray_hugeGray (width x y : Int) (h0 : 0 ≤ y * width + x)
    (h1 : y * width + x < 2147549184) : Spec.gray hugeGray width x y = some 7 := by
  unfold Spec.gray hugeGray
  rw [if_pos h0, List.getElem?_replicate_of_lt]
  have h2 : ((y * width + x).toNat : Int) < 2147549184 := by
    rw [Int.toNat_of_nonneg h0]
    exact h1
  exact_mod_cast h2

/-- C16 as stated fails above `INT_MAX` pixels: the uniform buffer of
`65536 * 32769` pixels is its own transpose, and for angle 90 and distance 1
`calculateGLCM` returns no matrix on the `65536 × 32769` image. -/
theorem calculateGLCM_vertical_transpose_counterexample :
    (hugeGray.length : Int) = 65536 * 32769 ∧
    (hugeGray.length : Int) = 32769 * 65536 ∧
    (∀ x y : Nat, (x : Int) < 32769 → (y : Int) < 65536 →
      Spec.gray hugeGray 32769 x y = Spec.gray hugeGray 65536 y x) ∧
    calculateGLCM hugeGray 65536 32769 1 90 = none := by
  refine ⟨hugeGray_length, ?_, ?_, calculateGLCM_overflow hugeGray 1 90 (by decide)⟩
  · rw [hugeGray_length]
    norm_num
  · intro x y hx hy
    rw [gray_hugeGray 32769 x y (by omega) (by omega),
      gray_hugeGray 65536 y x (by omega) (by omega)]

/-! ## Bounds on contrast and energy -/

/-- Evaluated in binary64 the pixel `(0, 23, 13)` has gray value 14, where exact
arithmetic gives `(59 * 23 + 11 * 13) / 100 = 15`; the black and the white
pixel have the same gray value in both evaluations. -/
theorem lumaBinary64_examples :
    toUnsignedChar (lumaBinary64 ⟨0, 23, 13⟩) = 14 ∧
    toUnsignedChar (luma ⟨0, 23, 13⟩) = 15 ∧
    toUnsignedChar (lumaBinary64 ⟨255, 255, 255⟩) = 255 ∧
    toUnsignedChar (luma ⟨255, 255, 255⟩) = 255 ∧
    toUnsignedChar (lumaBinary64 ⟨0, 0, 0⟩) = 0 ∧
    toUnsignedChar (luma ⟨0, 0, 0⟩) = 0 := by
  decide!

end AutoML
